import Mathlib

/-!
Verification development for the Learning Battery Market (LBM) repository.

Shallow embedding of the components the checked properties are about:

* `lb/secure_channel.py` : secure-record open (counter discipline) and the
  server handshake timestamp validation.
* `lb/rate_limit.py`     : the sliding-window rate limiter.
* `lb/wal.py`            : the write-ahead log transaction protocol and
  crash recovery, modelled as a small-step system over an abstract disk.
* `lb/cas.py`            : the content-addressed store with its startup
  reconciliation pass.
* `lb/latent.py`         : the deterministic query embedding.
* `lb/chain.py`          : the group state machine (this module is not
  shipped in the source tree; it is modelled from the specification and
  from its test suite, see the doc comments there).

External cryptographic primitives (hashlib SHA-256, Ed25519, AEAD) are
represented by abstract function parameters: the properties proved here do
not depend on their internals, only on how the repository code uses their
results.
-/

/-! ## Secure channel (`lb/secure_channel.py`) -/

/-- Protocol tag `PROTO = "lb-p2p-v1"` from `secure_channel.py`. -/
def PROTO : String := "lb-p2p-v1"

/-- Handshake clock-drift bound `HANDSHAKE_MAX_CLOCK_DRIFT_MS` (5 minutes). -/
def HANDSHAKE_MAX_CLOCK_DRIFT_MS : Int := 5 * 60 * 1000

/-- Mutable counters of `SecureSession`.  The AEAD keys and nonce prefixes
are irrelevant to the counter discipline and are abstracted into the
decryption parameter of `SecureSession.openRecord`. -/
structure SecureSession where
  sendCtr : Int
  recvCtr : Int
deriving Repr, DecidableEq

/-- Errors raised by `SecureSession.open` (`CryptoError` in the source). -/
inductive OpenErr where
  | missingCtr
  | badCtr
  | decryptFailed
deriving Repr, DecidableEq

/-- Incoming record envelope.  `ctr = none` models an envelope whose `ctr`
field is absent or not an integer; `ct` is the opaque ciphertext. -/
structure Envelope (C : Type) where
  ctr : Option Int
  ct : C

/-- Model of `SecureSession.open` (renamed: `open` is a Lean keyword).
`dec ctr ct` abstracts `aead_decrypt` with the nonce and AAD derived from
the counter; it returns `none` on authentication failure.  The first
component of the result is the session state after the call, mirroring the
mutation of `self.recv_ctr`. -/
def SecureSession.openRecord {C M : Type} (dec : Int → C → Option M)
    (s : SecureSession) (env : Envelope C) : SecureSession × Except OpenErr M :=
  match env.ctr with
  | none => (s, .error .missingCtr)
  | some c =>
    if c = s.recvCtr then
      let s2 : SecureSession := { s with recvCtr := s.recvCtr + 1 }
      match dec c env.ct with
      | some m => (s2, .ok m)
      | none => (s2, .error .decryptFailed)
    else
      (s, .error .badCtr)

/-- True when an `Except` result is an error. -/
def exceptFailed {E A : Type} : Except E A → Bool
  | .error _ => true
  | .ok _ => false

/-- Handshake failures (`HandshakeError` in the source). -/
inductive HsErr where
  | badHello
  | badSignature
  | tsTooNew
  | tsTooOld
deriving Repr, DecidableEq

/-- Model of `_validate_handshake_timestamp`. -/
def validateHandshakeTimestamp (ts : Int) (nowMs : Int)
    (maxDrift : Int := HANDSHAKE_MAX_CLOCK_DRIFT_MS) : Except HsErr Unit :=
  if ts > nowMs + maxDrift then .error .tsTooNew
  else if ts < nowMs - maxDrift then .error .tsTooOld
  else .ok ()

/-- Fields of an incoming `hello` message that the server handshake
inspects before any write.  `sigOk` abstracts the outcome of
`_verify_signed` (Ed25519 verification of the canonicalised body). -/
structure HelloMsg where
  msgType : String
  ver : String
  signPub : String
  encPub : String
  ts : Int
  sigOk : Bool

/-- Result of a successful server handshake: the authenticated peer keys.
The `welcome` frame is written, and the session derived, only in this
success case, mirroring the control flow of `server_handshake`. -/
structure ServerHsOk where
  peerSignPub : String
  peerEncPub : String

/-- Model of `server_handshake` up to the point where the `welcome` frame
is sent: type and protocol-version check, signature verification, then
timestamp validation.  An error return means the connection is terminated
before any `welcome` or encrypted record is produced. -/
def serverHandshake (nowMs : Int) (hello : HelloMsg) : Except HsErr ServerHsOk :=
  if hello.msgType ≠ "hello" ∨ hello.ver ≠ PROTO then .error .badHello
  else if ¬ hello.sigOk then .error .badSignature
  else
    match validateHandshakeTimestamp hello.ts nowMs with
    | .error e => .error e
    | .ok _ => .ok { peerSignPub := hello.signPub, peerEncPub := hello.encPub }

/-! ## Sliding-window rate limiter (`lb/rate_limit.py`) -/

/-- Result record returned by `SlidingWindowRateLimiter.check`. -/
structure RateLimitResult where
  allowed : Bool
  waitSeconds : ℚ
deriving Repr, DecidableEq

/-- Limiter parameters from the constructor. -/
structure RLConfig where
  windowSeconds : ℚ
  maxRequests : Nat
  maxKeys : Nat
deriving Repr

/-- Limiter state: `requests` models the `OrderedDict` in least-recently
used order (front = oldest), `lastCleanup` models `_last_cleanup`.  Time
is modelled by exact rationals. -/
structure RLState where
  requests : List (String × List ℚ)
  lastCleanup : ℚ

/-- Interval between automatic cleanups (`_cleanup_interval`, 60 s). -/
def RL_CLEANUP_INTERVAL : ℚ := 60

/-- Model of `_cleanup_expired_unlocked`: prune every key's timestamps to
the cutoff and drop keys whose list becomes empty. -/
def rlCleanupExpired (st : RLState) (nowT cutoff : ℚ) : RLState :=
  { requests :=
      (st.requests.map (fun kv => (kv.1, kv.2.filter (fun ts => cutoff < ts)))).filter
        (fun kv => ¬ kv.2.isEmpty)
    lastCleanup := nowT }

/-- Model of `_evict_oldest_unlocked`: delete up to `max 1 (maxKeys / 10)`
keys, preferring keys whose timestamps are all expired, then falling back
to least-recently-used order. -/
def rlEvictOldest (cfg : RLConfig) (st : RLState) (cutoff : ℚ) : RLState :=
  let toEvict := Nat.max 1 (cfg.maxKeys / 10)
  let expired := (st.requests.filter
      (fun kv => (kv.2.filter (fun ts => cutoff < ts)).isEmpty)).map Prod.fst
  let firstPass := expired.take toEvict
  let victims :=
    if firstPass.length < toEvict then
      firstPass ++
        ((st.requests.map Prod.fst).filter (fun k => ¬ firstPass.contains k)).take
          (toEvict - firstPass.length)
    else firstPass
  { st with requests := st.requests.filter (fun kv => ¬ victims.contains kv.1) }

/-- Replace the stored timestamp list of `key`, keeping its position
(models the in-place mutation `timestamps[:] = ...`). -/
def rlSetList (l : List (String × List ℚ)) (key : String) (ts : List ℚ) :
    List (String × List ℚ) :=
  l.map (fun kv => if kv.1 = key then (key, ts) else kv)

/-- LRU bookkeeping and admission decision of `check` after the optional
periodic cleanup: move-to-end for a tracked key, otherwise insertion with
possible eviction; then prune the key's timestamps to the window and
decide, recording the request time when admitted. -/
def rlAdmit (cfg : RLConfig) (st1 : RLState) (key : String) (nowT cutoff : ℚ) :
    RateLimitResult × RLState :=
  let st2 :=
    if (st1.requests.lookup key).isSome then
      -- move_to_end: remove and re-append with the stored value
      { st1 with requests :=
          st1.requests.filter (fun kv => kv.1 ≠ key)
            ++ [(key, (st1.requests.lookup key).getD [])] }
    else
      let st1e :=
        if cfg.maxKeys ≤ st1.requests.length then rlEvictOldest cfg st1 cutoff
        else st1
      { st1e with requests := st1e.requests ++ [(key, [])] }
  let pruned := ((st2.requests.lookup key).getD []).filter (fun ts => cutoff < ts)
  let st3 := { st2 with requests := rlSetList st2.requests key pruned }
  if cfg.maxRequests ≤ pruned.length then
    ({ allowed := false,
       waitSeconds := max 0 (pruned.headD nowT + cfg.windowSeconds - nowT) }, st3)
  else
    ({ allowed := true, waitSeconds := 0 },
     { st3 with requests := rlSetList st3.requests key (pruned ++ [nowT]) })

/-- Model of `SlidingWindowRateLimiter.check` for one key at time `nowT`:
optional periodic cleanup, then LRU bookkeeping, pruning and the
admission decision with the advisory wait time. -/
def rlCheck (cfg : RLConfig) (st : RLState) (key : String) (nowT : ℚ) :
    RateLimitResult × RLState :=
  let cutoff := nowT - cfg.windowSeconds
  let st1 :=
    if RL_CLEANUP_INTERVAL < nowT - st.lastCleanup then
      rlCleanupExpired st nowT cutoff
    else st
  rlAdmit cfg st1 key nowT cutoff

/-- Run a sequence of checks for one key, collecting the admission bits. -/
def rlRunTrace (cfg : RLConfig) (st : RLState) (key : String) :
    List ℚ → List Bool × RLState
  | [] => ([], st)
  | t :: ts =>
    let r := rlCheck cfg st key t
    let rest := rlRunTrace cfg r.2 key ts
    (r.1.allowed :: rest.1, rest.2)

/-! ## Write-ahead log (`lb/wal.py`)

One WAL transaction is modelled as a small-step system over an abstract
disk.  `P` is the type of target paths, `V` the type of file contents (a
staged JSON payload is written atomically by `atomic_write_json`, so one
step per file-level operation is the crash granularity).  Staged and
backup files are keyed by the sequence number of their entry
(`wal/<tx>_<seq>.staged`, `wal/<tx>_<seq>.backup`), which lives in the WAL
directory, disjoint from the target paths. -/

/-- Disk state seen by one WAL transaction: target files, staged files and
backup files by sequence number, and the log records of this transaction
(`logE` entries carry sequence number, target path and whether a backup
was recorded: `backup_path` is non-null; `logC` is the commit marker). -/
structure WalDisk (P V : Type) where
  tgt : P → Option V
  stg : Nat → Option V
  bak : Nat → Option V
  logE : List (Nat × P × Bool)
  logC : Bool

/-- One primitive disk I/O of the transaction protocol. -/
inductive WalStep (P V : Type) where
  | mkBackup (i : Nat) (p : P)
  | mkStaged (i : Nat) (d : V)
  | logEntry (i : Nat) (p : P)
  | logCommit
  | applyStaged (i : Nat) (p : P)
  | delBackup (i : Nat)
  | delStaged (i : Nat)
  | clearLog

/-- Pointwise update of a map. -/
def updMap {K V : Type} [DecidableEq K] (f : K → Option V) (k : K) (v : Option V) :
    K → Option V :=
  fun q => if q = k then v else f q

/-- Effect of one primitive disk I/O.

* `mkBackup i p`: `shutil.copy2(path, backup_path)` guarded by
  `path.exists()` — copies the current target into backup slot `i`.
* `mkStaged i d`: `atomic_write_json(data_path, data)`.
* `logEntry i p`: fsynced append of the entry record; `backup_path` is
  non-null exactly when the backup file was created.
* `logCommit`: fsynced append of the commit record.
* `applyStaged i p`: `shutil.copy2(entry.data_path, target)` during
  `commit`.
* `delBackup` / `delStaged`: `unlink` during `_cleanup`.
* `clearLog`: `_remove_tx_entries` — with a single transaction the log
  becomes empty and is unlinked. -/
def walExec {P V : Type} [DecidableEq P] (d : WalDisk P V) : WalStep P V → WalDisk P V
  | .mkBackup i p =>
    match d.tgt p with
    | some v => { d with bak := updMap d.bak i (some v) }
    | none => d
  | .mkStaged i v => { d with stg := updMap d.stg i (some v) }
  | .logEntry i p => { d with logE := d.logE ++ [(i, p, (d.bak i).isSome)] }
  | .logCommit => { d with logC := true }
  | .applyStaged i p =>
    match d.stg i with
    | some v => { d with tgt := updMap d.tgt p (some v) }
    | none => d
  | .delBackup i => { d with bak := updMap d.bak i none }
  | .delStaged i => { d with stg := updMap d.stg i none }
  | .clearLog => { d with logE := [], logC := false }

/-- Run a list of primitive steps. -/
def walRun {P V : Type} [DecidableEq P] (d : WalDisk P V) (l : List (WalStep P V)) :
    WalDisk P V :=
  l.foldl walExec d

/-- Staging steps of `Transaction.write_json` for the writes `ws`,
sequence numbers starting at `i0`: back up the existing target, stage the
new data, append the entry record. -/
def stageSteps {P V : Type} (i0 : Nat) : List (P × V) → List (WalStep P V)
  | [] => []
  | (p, v) :: ws =>
    .mkBackup i0 p :: .mkStaged i0 v :: .logEntry i0 p :: stageSteps (i0 + 1) ws

/-- Copy steps of `Transaction.commit`: staged file over target, in entry
order. -/
def applySteps {P V : Type} (i0 : Nat) : List (P × V) → List (WalStep P V)
  | [] => []
  | (p, _) :: ws => .applyStaged i0 p :: applySteps (i0 + 1) ws

/-- Cleanup steps of `Transaction._cleanup`: per entry, delete the backup
then the staged file. -/
def cleanSteps {P V : Type} (i0 : Nat) : List (P × V) → List (WalStep P V)
  | [] => []
  | _ :: ws => .delBackup i0 :: .delStaged i0 :: cleanSteps (i0 + 1) ws

/-- Full disk I/O sequence of a transaction that stages the writes `ws`
and then commits: staging, commit marker, staged-to-target copies,
cleanup, log-entry removal. -/
def txSteps {P V : Type} (ws : List (P × V)) : List (WalStep P V) :=
  stageSteps 0 ws ++ [.logCommit] ++ applySteps 0 ws ++ cleanSteps 0 ws ++ [.clearLog]

/-- Replay one committed entry during `recover`: copy the staged file over
the target if the staged file still exists. -/
def walReplayOne {P V : Type} [DecidableEq P] (stg : Nat → Option V)
    (tgt : P → Option V) (e : Nat × P × Bool) : P → Option V :=
  match stg e.1 with
  | some v => updMap tgt e.2.1 (some v)
  | none => tgt

/-- Roll back one entry during `recover`: restore the backup over the
target if the entry recorded a backup path and the backup file exists. -/
def walRollbackOne {P V : Type} [DecidableEq P] (bak : Nat → Option V)
    (tgt : P → Option V) (e : Nat × P × Bool) : P → Option V :=
  if e.2.2 then
    match bak e.1 with
    | some v => updMap tgt e.2.1 (some v)
    | none => tgt
  else tgt

/-- Model of `WriteAheadLog.recover` restricted to one transaction: scan
the log; if the commit marker is present replay the entries in order,
otherwise restore backups in reverse order; then delete all staged and
backup files (the per-entry cleanup plus the orphan glob) and clear the
log. -/
def walRecover {P V : Type} [DecidableEq P] (d : WalDisk P V) : WalDisk P V :=
  let tgt2 :=
    if d.logC then d.logE.foldl (walReplayOne d.stg) d.tgt
    else d.logE.reverse.foldl (walRollbackOne d.bak) d.tgt
  { tgt := tgt2, stg := fun _ => none, bak := fun _ => none, logE := [], logC := false }

/-- Initial disk for a transaction: target files `t0`, no staged or backup
files, empty log. -/
def walInit {P V : Type} (t0 : P → Option V) : WalDisk P V :=
  { tgt := t0, stg := fun _ => none, bak := fun _ => none, logE := [], logC := false }

/-! Model of the `Transaction` object itself (for the finalisation
claims).  The entry list mirrors `self.entries` (sequence number, target
path, whether a backup was recorded); the flags mirror `_committed` and
`_rolled_back`. -/

/-- In-memory `Transaction` state. -/
structure WalTx (P : Type) where
  entries : List (Nat × P × Bool)
  seq : Nat
  committed : Bool
  rolledBack : Bool

/-- Steps of `Transaction.rollback`: restore backups over targets in
reverse entry order (`walRollbackOne` matches the guard
`entry.backup_path and Path(entry.backup_path).exists()`), then clean up. -/
def rollbackTgt {P V : Type} [DecidableEq P] (d : WalDisk P V)
    (entries : List (Nat × P × Bool)) : P → Option V :=
  entries.reverse.foldl (walRollbackOne d.bak) d.tgt

/-- Model of `Transaction.write_json`: raises `WALError` when the
transaction is already finalised, otherwise performs the three staging
I/Os and records the entry. -/
def txWriteJson {P V : Type} [DecidableEq P] (tx : WalTx P) (d : WalDisk P V)
    (p : P) (v : V) : Except Unit (WalTx P × WalDisk P V) :=
  if tx.committed || tx.rolledBack then .error ()
  else
    let i := tx.seq + 1
    let d2 := walRun d [.mkBackup i p, .mkStaged i v]
    let hb := (d2.bak i).isSome
    let d3 := walExec d2 (.logEntry i p)
    .ok ({ tx with entries := tx.entries ++ [(i, p, hb)], seq := i }, d3)

/-- Model of `Transaction.commit`: raises `WALError` when already
finalised, otherwise writes the commit marker, copies every staged file
over its target, cleans up, and marks the transaction committed. -/
def txCommit {P V : Type} [DecidableEq P] (tx : WalTx P) (d : WalDisk P V) :
    Except Unit (WalTx P × WalDisk P V) :=
  if tx.committed || tx.rolledBack then .error ()
  else
    let d2 := walExec d .logCommit
    let d3 := tx.entries.foldl (fun acc e => walExec acc (.applyStaged e.1 e.2.1)) d2
    let d4 := tx.entries.foldl
      (fun acc e => walRun acc [.delBackup e.1, .delStaged e.1]) d3
    let d5 := walExec d4 .clearLog
    .ok ({ tx with committed := true }, d5)

/-- Model of `Transaction.rollback`: returns silently (no disk change, no
flag change) when the transaction is already finalised; otherwise restores
backups in reverse order, cleans up, and marks the transaction rolled
back. -/
def txRollback {P V : Type} [DecidableEq P] (tx : WalTx P) (d : WalDisk P V) :
    WalTx P × WalDisk P V :=
  if tx.committed || tx.rolledBack then (tx, d)
  else
    let d2 := { d with tgt := rollbackTgt d tx.entries }
    let d3 := tx.entries.foldl
      (fun acc e => walRun acc [.delBackup e.1, .delStaged e.1]) d2
    let d4 := walExec d3 .clearLog
    ({ tx with rolledBack := true }, d4)

/-! ## Content-addressed store (`lb/cas.py`)

`B` is the type of byte blobs, `M` of metadata records.  The SHA-256 hex
digest (`sha256_hex` over `hashlib`) is an abstract parameter
`hashFn : B → String`.  The two-level `objects/<aa>/<bb>/<hash>` layout is
collapsed into the full-hash key: the path is determined by the hash.
`objs` models the on-disk object files, `index` the `index.json`
side-car; both are association lists (first binding wins, like a
filesystem directory or a JSON object). -/

/-- On-disk state of the CAS. -/
structure CasState (B M : Type) where
  objs : List (String × B)
  index : List (String × M)

/-- Model of `CAS.put`: reject oversized blobs, write the object file only
when absent, then durably overwrite the index entry. -/
def casPut {B M : Type} (hashFn : B → String) (sizeOf : B → Nat) (maxSize : Nat)
    (st : CasState B M) (data : B) (meta : M) : Except Unit (String × CasState B M) :=
  if maxSize < sizeOf data then .error ()
  else
    let h := hashFn data
    let objs2 := if (st.objs.lookup h).isSome then st.objs else (h, data) :: st.objs
    let index2 := (h, meta) :: st.index.filter (fun kv => kv.1 ≠ h)
    .ok (h, { objs := objs2, index := index2 })

/-- Model of `CAS.get`: raw read of the object file, no re-hashing. -/
def casGet {B M : Type} (st : CasState B M) (h : String) : Except Unit B :=
  match st.objs.lookup h with
  | some b => .ok b
  | none => .error ()

/-- One step of the orphan scan of `CAS._validate_index`: the accumulator
carries the surviving object files and the evolving index.  A file already
indexed is kept; an unindexed file whose name matches its content hash is
re-inserted with best-effort metadata; otherwise the file is deleted. -/
def casOrphanStep {B M : Type} (hashFn : B → String) (defaultMeta : B → M)
    (acc : List (String × B) × List (String × M)) (ob : String × B) :
    List (String × B) × List (String × M) :=
  if (acc.2.lookup ob.1).isSome then (acc.1 ++ [ob], acc.2)
  else if hashFn ob.2 = ob.1 then
    (acc.1 ++ [ob], acc.2 ++ [(ob.1, defaultMeta ob.2)])
  else (acc.1, acc.2)

/-- Model of `CAS._validate_index`: drop index entries whose object file
is missing, then scan the on-disk objects for orphans. -/
def casValidate {B M : Type} (hashFn : B → String) (defaultMeta : B → M)
    (st : CasState B M) : CasState B M :=
  let idx1 := st.index.filter (fun kv => (st.objs.lookup kv.1).isSome)
  let r := st.objs.foldl (casOrphanStep hashFn defaultMeta) ([], idx1)
  { objs := r.1, index := r.2 }

/-- Mutual consistency of index and object files: a hash is indexed
exactly when its object file exists. -/
def casConsistent {B M : Type} (st : CasState B M) : Prop :=
  ∀ h, (st.index.lookup h).isSome ↔ (st.objs.lookup h).isSome

/-- Every stored object file's name is the hash of its content (true of
every state the store itself produces; `put` only writes `data` at
`hashFn data`). -/
def casWellHashed {B M : Type} (hashFn : B → String) (st : CasState B M) : Prop :=
  ∀ h b, st.objs.lookup h = some b → hashFn b = h

/-! ## Query embedding (`lb/latent.py`)

The per-token 64-byte direction (two SHA-256 digests mapped through
`b[i] / 127.5 - 1`) is the abstract parameter `hv`; the floating-point
square root is the abstract parameter `sqrtQ`.  Arithmetic is modelled
exactly over the rationals. -/

/-- A character matched by the token pattern `[A-Za-z0-9_]+`. -/
def isWordChar (c : Char) : Bool :=
  c.isAlpha || c.isDigit || c = '_'

/-- Split a character list into maximal word-character runs; the first
component is the run currently being built from the front. -/
def tokSplit : List Char → List Char × List (List Char)
  | [] => ([], [])
  | c :: cs =>
    let r := tokSplit cs
    if isWordChar c then (c :: r.1, r.2)
    else ([], if r.1.isEmpty then r.2 else r.1 :: r.2)

/-- Model of `_tokenize`: maximal `[A-Za-z0-9_]+` runs, lower-cased. -/
def tokenize (s : String) : List String :=
  let r := tokSplit s.data
  let runs := if r.1.isEmpty then r.2 else r.1 :: r.2
  runs.map (fun g => String.mk (g.map Char.toLower))

/-- Default embedding dimension. -/
def EMBED_DIM : Nat := 64

/-- Accumulation loop of `embed`: the zero vector plus every token's
direction. -/
def embedVec (hv : String → List ℚ) (text : String) (dim : Nat) : List ℚ :=
  (tokenize text).foldl (fun acc t => List.zipWith (· + ·) acc (hv t))
    (List.replicate dim 0)

/-- Model of `embed`: accumulate the per-token directions over the token
list, then normalise; the all-zero vector is returned for an empty token
list or a zero norm. -/
def embed (hv : String → List ℚ) (sqrtQ : ℚ → ℚ) (text : String)
    (dim : Nat := EMBED_DIM) : List ℚ :=
  if (tokenize text).isEmpty then List.replicate dim 0
  else if sqrtQ (((embedVec hv text dim).map (fun x => x * x)).sum) = 0 then
    List.replicate dim 0
  else
    (embedVec hv text dim).map
      (fun x => x / sqrtQ (((embedVec hv text dim).map (fun x => x * x)).sum))

/-- The hashed token bag, written as the specification describes it:
coordinate `i` is the sum over the tokens of coordinate `i` of the
per-token direction. -/
def specBagCoord (hv : String → List ℚ) (text : String) (i : Nat) : ℚ :=
  (((tokenize text).map (fun t => (hv t).getD i 0)).sum)

/-- The hashed token bag as a vector. -/
def specBag (hv : String → List ℚ) (text : String) (dim : Nat) : List ℚ :=
  (List.range dim).map (specBagCoord hv text)

/-- The specification's description of the embedding: the hashed token
bag normalised to unit L2 norm (with the division-by-zero convention of
the rationals, which coincides with the source's all-zero fallback). -/
def specEmbed (hv : String → List ℚ) (sqrtQ : ℚ → ℚ) (text : String)
    (dim : Nat := EMBED_DIM) : List ℚ :=
  (specBag hv text dim).map
    (fun x => x / sqrtQ (((specBag hv text dim).map (fun x => x * x)).sum))

/-! ## Group chain state machine (`lb/chain.py`)

Modelled from the spec: the module `lb/chain.py` is imported throughout
the source tree (`lb/group.py`, the test suite) but is not shipped under
`src/`; the definitions below implement the transaction semantics of
specification section 4.1 (`member_add`, `member_remove`, `mint`,
`transfer`, `policy_update`, `claim`, `retract`, `offer_create`,
`offer_close`, `offer_purchase`) with the behaviours pinned down by
`tests/test_chain.py` and `tests/test_token_economy.py`.  Block shape,
hash-linking and signature checks are not modelled: they gate which
blocks are accepted but do not alter how an accepted block transforms
balances, which is what the invariant claims quantify over. -/

/-- Sentinel balance key that accumulates transfer fees. -/
def TREASURY : String := "TREASURY"

/-- Modelled from the spec: `MAX_TOKEN_VALUE` bounds every single token
amount; its numeric value lives in the missing `lb/chain.py`, and any
positive bound yields the same invariants (this is 2 to the power 62). -/
def MAX_TOKEN_VALUE : Int := 4611686018427387904

/-- Per-group tunable policy. -/
structure GroupPolicy where
  faucetAmount : Int
  claimRewardAmount : Int
  transferFeeBps : Int
  maxTotalSupply : Option Int
  maxAccountBalance : Option Int
deriving Repr, DecidableEq

/-- Default policy installed by genesis (faucet, rewards and fees off; no
caps), per the test suite. -/
def defaultPolicy : GroupPolicy :=
  { faucetAmount := 0, claimRewardAmount := 0, transferFeeBps := 0,
    maxTotalSupply := none, maxAccountBalance := none }

/-- A market offer: seller, price and the active flag. -/
structure OfferRec where
  seller : String
  price : Int
  active : Bool
deriving Repr, DecidableEq

/-- Derived group state. -/
structure GroupState where
  members : List String
  admins : List String
  balances : List (String × Int)
  totalSupply : Int
  policy : GroupPolicy
  claims : List (String × String)
  retractedClaims : List String
  offers : List (String × OfferRec)
  grants : List String
deriving Repr, DecidableEq

/-- Fields of a `policy_update` transaction; `none` means the key is not
being updated. -/
structure PolicyUpdates where
  faucetAmount : Option Int := none
  claimRewardAmount : Option Int := none
  transferFeeBps : Option Int := none
  maxTotalSupply : Option Int := none
  maxAccountBalance : Option Int := none
deriving Repr, DecidableEq

/-- Transaction kinds of specification section 4.1. -/
inductive Tx where
  | memberAdd (pub : String) (role : String)
  | memberRemove (pub : String)
  | mint (toPub : String) (amount : Int)
  | transfer (fromPub : String) (toPub : String) (amount : Int)
  | policyUpdate (u : PolicyUpdates)
  | claim (artifactHash : String)
  | retract (artifactHash : String)
  | offerCreate (offerId : String) (price : Int)
  | offerClose (offerId : String)
  | offerPurchase (offerId : String) (buyer : String)
deriving Repr, DecidableEq

/-- Balance read with default 0 (`balances.get(pub, 0)`). -/
def getBal (bs : List (String × Int)) (k : String) : Int :=
  (bs.lookup k).getD 0

/-- Balance write: replace the binding if present, else append. -/
def setBal (bs : List (String × Int)) (k : String) (v : Int) : List (String × Int) :=
  if bs.any (fun e => e.1 = k) then
    bs.map (fun e => if e.1 = k then (k, v) else e)
  else bs ++ [(k, v)]

/-- Credit an account. -/
def credit (bs : List (String × Int)) (k : String) (a : Int) : List (String × Int) :=
  setBal bs k (getBal bs k + a)

/-- True when the value respects an optional cap. -/
def underCap (cap : Option Int) (v : Int) : Bool :=
  match cap with
  | none => true
  | some c => v ≤ c

/-- Apply one transaction authored by `author`; errors leave the state
untouched (`append` is all-or-nothing over the shadow state). -/
def applyTx (author : String) (st : GroupState) : Tx → Except String GroupState
  | .memberAdd pub role =>
    if author ∉ st.admins then .error "member_add requires admin"
    else if pub ∈ st.members then .ok st
    else
      let st2 := { st with
        members := st.members ++ [pub],
        admins := if role = "admin" then st.admins ++ [pub] else st.admins }
      let f := st.policy.faucetAmount
      if 0 < f ∧ underCap st.policy.maxTotalSupply (st.totalSupply + f)
          ∧ underCap st.policy.maxAccountBalance (getBal st.balances pub + f) then
        .ok { st2 with balances := credit st.balances pub f,
                       totalSupply := st.totalSupply + f }
      else .ok st2
  | .memberRemove pub =>
    if author ∉ st.admins then .error "member_remove requires admin"
    else .ok { st with members := st.members.erase pub, admins := st.admins.erase pub }
  | .mint toPub amount =>
    if author ∉ st.admins then .error "mint requires admin"
    else if amount ≤ 0 then .error "invalid amount"
    else if MAX_TOKEN_VALUE < amount then .error "amount too large"
    else if ¬ underCap st.policy.maxTotalSupply (st.totalSupply + amount) then
      .error "max_total_supply exceeded"
    else if ¬ underCap st.policy.maxAccountBalance (getBal st.balances toPub + amount) then
      .error "max_account_balance exceeded"
    else .ok { st with balances := credit st.balances toPub amount,
                       totalSupply := st.totalSupply + amount }
  | .transfer fromPub toPub amount =>
    if fromPub ≠ author then .error "transfer author mismatch"
    else if fromPub = toPub then .error "transfer to self"
    else if amount ≤ 0 then .error "invalid amount"
    else if MAX_TOKEN_VALUE < amount then .error "amount too large"
    else
      let fee := amount * st.policy.transferFeeBps / 10000
      if getBal st.balances fromPub < amount + fee then .error "insufficient balance"
      else if ¬ underCap st.policy.maxAccountBalance (getBal st.balances toPub + amount) then
        .error "max_account_balance exceeded"
      else
        let bs1 := setBal st.balances fromPub (getBal st.balances fromPub - (amount + fee))
        let bs2 := credit bs1 toPub amount
        let bs3 := credit bs2 TREASURY fee
        .ok { st with balances := bs3 }
  | .policyUpdate u =>
    if author ∉ st.admins then .error "policy_update requires admin"
    else if u.faucetAmount = none ∧ u.claimRewardAmount = none ∧ u.transferFeeBps = none
        ∧ u.maxTotalSupply = none ∧ u.maxAccountBalance = none then
      .error "empty policy_update"
    else if u.faucetAmount.any (fun f => decide (f < 0 ∨ MAX_TOKEN_VALUE < f)) then
      .error "invalid faucet_amount"
    else if u.claimRewardAmount.any (fun r => decide (r < 0 ∨ MAX_TOKEN_VALUE < r)) then
      .error "invalid claim_reward_amount"
    else if u.transferFeeBps.any (fun b => decide (b < 0 ∨ 5000 < b)) then
      .error "transfer_fee_bps must be 0-5000"
    else if u.maxTotalSupply.any (fun m => decide (m < st.totalSupply)) then
      .error "max_total_supply cannot be below current supply"
    else if u.maxAccountBalance.any (fun m => decide (m < 0)) then
      .error "invalid max_account_balance"
    else
      .ok { st with policy :=
        { faucetAmount := u.faucetAmount.getD st.policy.faucetAmount,
          claimRewardAmount := u.claimRewardAmount.getD st.policy.claimRewardAmount,
          transferFeeBps := u.transferFeeBps.getD st.policy.transferFeeBps,
          maxTotalSupply := u.maxTotalSupply.orElse (fun _ => st.policy.maxTotalSupply),
          maxAccountBalance := u.maxAccountBalance.orElse (fun _ => st.policy.maxAccountBalance) } }
  | .claim artifactHash =>
    if author ∉ st.members then .error "claim requires membership"
    else
      let st2 := { st with claims := st.claims ++ [(artifactHash, author)] }
      let r := st.policy.claimRewardAmount
      if 0 < r ∧ underCap st.policy.maxTotalSupply (st.totalSupply + r)
          ∧ underCap st.policy.maxAccountBalance (getBal st.balances author + r) then
        .ok { st2 with balances := credit st.balances author r,
                       totalSupply := st.totalSupply + r }
      else .ok st2
  | .retract artifactHash =>
    if author ∉ st.members then .error "retract requires membership"
    else if author ∈ st.admins ∨ st.claims.lookup artifactHash = some author then
      .ok { st with retractedClaims := st.retractedClaims ++ [artifactHash] }
    else .error "retract requires admin or original author"
  | .offerCreate offerId price =>
    if author ∉ st.members then .error "offer_create requires membership"
    else if (st.offers.lookup offerId).isSome then .error "offer exists"
    else if price < 0 then .error "invalid price"
    else .ok { st with offers :=
      st.offers ++ [(offerId, { seller := author, price := price, active := true })] }
  | .offerClose offerId =>
    match st.offers.lookup offerId with
    | none => .error "offer not found"
    | some o =>
      if author = o.seller ∨ author ∈ st.admins then
        .ok { st with offers := st.offers.map (fun kv =>
          if kv.1 = offerId then (kv.1, { kv.2 with active := false }) else kv) }
      else .error "offer_close requires seller or admin"
  | .offerPurchase offerId buyer =>
    if buyer ∉ st.members then .error "buyer not a member"
    else
      match st.offers.lookup offerId with
      | none => .error "offer not found"
      | some o =>
        if ¬ o.active then .error "offer inactive"
        else if buyer = o.seller then .error "cannot buy own offer"
        else
          let fee := o.price * st.policy.transferFeeBps / 10000
          if getBal st.balances buyer < o.price + fee then .error "insufficient balance"
          else if ¬ underCap st.policy.maxAccountBalance
              (getBal st.balances o.seller + o.price) then
            .error "max_account_balance exceeded"
          else
            let bs1 := setBal st.balances buyer
              (getBal st.balances buyer - (o.price + fee))
            let bs2 := credit bs1 o.seller o.price
            let bs3 := credit bs2 TREASURY fee
            .ok { st with balances := bs3,
                          grants := st.grants ++ [offerId ++ ":" ++ buyer] }

/-- A block as the state machine sees it: the authenticated author and the
transaction list (hash linking and signatures gate acceptance upstream). -/
structure BlockM where
  author : String
  txs : List Tx
deriving Repr, DecidableEq

/-- Apply a block: the author must be a member; the transactions apply in
order against a shadow state, all-or-nothing. -/
def applyBlock (st : GroupState) (b : BlockM) : Except String GroupState :=
  if b.author ∈ st.members then b.txs.foldlM (applyTx b.author) st
  else .error "author not a member"

/-- Genesis state: the creator is the sole admin-member; empty balances;
default policy. -/
def genesisState (creator : String) : GroupState :=
  { members := [creator], admins := [creator], balances := [], totalSupply := 0,
    policy := defaultPolicy, claims := [], retractedClaims := [], offers := [],
    grants := [] }

/-- Run a whole chain from genesis. -/
def runChain (creator : String) (blocks : List BlockM) : Except String GroupState :=
  blocks.foldlM applyBlock (genesisState creator)

/-- Sum of all account balances (the treasury included). -/
def sumBal (bs : List (String × Int)) : Int :=
  (bs.map Prod.snd).sum

/-- Balance-conservation part of invariant I4 plus the supply cap. -/
def balancesWF (st : GroupState) : Prop :=
  sumBal st.balances = st.totalSupply
  ∧ (∀ e ∈ st.balances, 0 ≤ e.2)
  ∧ underCap st.policy.maxTotalSupply st.totalSupply = true

/-- Structural side conditions maintained by the state machine: balance
keys are unique and the policy fields are in their documented ranges. -/
def stateWF (st : GroupState) : Prop :=
  balancesWF st
  ∧ (st.balances.map Prod.fst).Nodup
  ∧ 0 ≤ st.policy.faucetAmount
  ∧ 0 ≤ st.policy.claimRewardAmount
  ∧ 0 ≤ st.policy.transferFeeBps
  ∧ (∀ o ∈ st.offers, 0 ≤ o.2.price)

/-- True when every balance respects the account cap: the clause of
invariant I4 that the state machine does not actually maintain. -/
def accountCapRespected (st : GroupState) : Bool :=
  st.balances.all (fun e => underCap st.policy.maxAccountBalance e.2)

/-- A step that copies a staged file over its target. -/
def IsApply {P V : Type} (s : WalStep P V) : Prop :=
  ∃ i p, s = .applyStaged i p

/-- A step that deletes a backup or staged file. -/
def IsClean {P V : Type} (s : WalStep P V) : Prop :=
  (∃ i, s = .delBackup i) ∨ (∃ i, s = .delStaged i)

/-- The entry records written by a full staging pass over `ws` starting at
sequence number `i0`, against pre-transaction targets `t0`: one record per
write, with `backup_path` recorded exactly when the target existed. -/
def fullEntries {P V : Type} (t0 : P → Option V) (i0 : Nat) :
    List (P × V) → List (Nat × P × Bool)
  | [] => []
  | (p, _) :: ws => (i0, p, (t0 p).isSome) :: fullEntries t0 (i0 + 1) ws

/-- Invariant of the staging phase: no commit marker, targets untouched,
every logged entry with a recorded backup has the pre-transaction contents
in its backup file, logged sequence numbers are below the next one, and
backup slots at and above the next sequence number are free. -/
def StageGood {P V : Type} (t0 : P → Option V) (i0 : Nat) (d : WalDisk P V) : Prop :=
  d.logC = false ∧ d.tgt = t0
  ∧ (∀ e ∈ d.logE, e.2.2 = true → d.bak e.1 = t0 e.2.1)
  ∧ (∀ e ∈ d.logE, e.1 < i0)
  ∧ (∀ j, i0 ≤ j → d.bak j = none)

/-- Post-transaction target contents: every write applied over the
pre-transaction targets, in order. -/
def postTgt {P V : Type} [DecidableEq P] (t0 : P → Option V) :
    List (P × V) → P → Option V
  | [], q => t0 q
  | (p, v) :: ws, q => postTgt (updMap t0 p (some v)) ws q

/-! ## Theorems -/

/-! ### Secure channel -/

/-- Helper: a record whose counter does not match the expected receive
counter is rejected and the session state is unchanged. -/
theorem openRecord_ne_rejected {C M : Type} (dec : Int → C → Option M)
    (s : SecureSession) (env : Envelope C) (h : env.ctr ≠ some s.recvCtr) :
    (SecureSession.openRecord dec s env).1 = s
      ∧ exceptFailed (SecureSession.openRecord dec s env).2 = true := by
  unfold SecureSession.openRecord
  cases hc : env.ctr with
  | none => constructor <;> rfl
  | some c =>
    have hne : ¬ c = s.recvCtr := by
      intro e
      exact h (by rw [hc, e])
    simp only [if_neg hne]
    exact ⟨trivial, rfl⟩

/-- Helper: a successfully opened record had exactly the expected counter,
and the receive counter advances by one. -/
theorem openRecord_ok_inv {C M : Type} (dec : Int → C → Option M)
    (s s2 : SecureSession) (env : Envelope C) (m : M)
    (h : SecureSession.openRecord dec s env = (s2, .ok m)) :
    env.ctr = some s.recvCtr ∧ s2.recvCtr = s.recvCtr + 1 := by
  unfold SecureSession.openRecord at h
  cases hc : env.ctr with
  | none => rw [hc] at h; simp at h
  | some c =>
    rw [hc] at h
    by_cases he : c = s.recvCtr
    · subst he
      simp only [if_pos rfl] at h
      refine ⟨rfl, ?_⟩
      cases hd : dec s.recvCtr env.ct with
      | some m2 =>
        rw [hd] at h
        have h1 := congrArg Prod.fst h
        dsimp at h1
        rw [← h1]
      | none => rw [hd] at h; simp at h
    · simp only [if_neg he] at h
      simp at h

/-- C5: a record whose `ctr` is not exactly the expected next receive
counter is rejected without advancing the receive counter, and a record
accepted once is rejected when presented again to the advanced session. -/
theorem secure_open_counter_discipline {C M : Type} (dec : Int → C → Option M)
    (s : SecureSession) (env : Envelope C) (h : env.ctr ≠ some s.recvCtr) :
    ((SecureSession.openRecord dec s env).1 = s
      ∧ exceptFailed (SecureSession.openRecord dec s env).2 = true)
    ∧ (∀ (env2 : Envelope C) (s0 s1 : SecureSession) (m : M),
        SecureSession.openRecord dec s0 env2 = (s1, .ok m) →
        (SecureSession.openRecord dec s1 env2).1 = s1
          ∧ exceptFailed (SecureSession.openRecord dec s1 env2).2 = true) := by
  refine ⟨openRecord_ne_rejected dec s env h, ?_⟩
  intro env2 s0 s1 m hok
  obtain ⟨hctr, hadv⟩ := openRecord_ok_inv dec s0 s1 env2 m hok
  apply openRecord_ne_rejected
  rw [hctr, hadv]
  intro e
  have : s0.recvCtr = s0.recvCtr + 1 := Option.some.injEq .. ▸ e
  omega

/-- Witness for C5 at a concrete session and record. -/
theorem secure_open_counter_discipline_witness :
    ((SecureSession.openRecord (fun _ _ => some 0) ⟨0, 5⟩ ⟨some 4, "x"⟩).1 = ⟨0, 5⟩
      ∧ exceptFailed (SecureSession.openRecord (fun _ _ => (some 0 : Option Nat))
          ⟨0, 5⟩ ⟨some 4, "x"⟩).2 = true) := by
  exact (secure_open_counter_discipline (fun _ _ => (some 0 : Option Nat))
    ⟨0, 5⟩ ⟨some 4, "x"⟩ (by decide)).1

/-- C6: a `hello` whose timestamp is more than five minutes in the past or
future makes the server handshake fail before a `welcome` is produced. -/
theorem server_handshake_rejects_stale_ts (hello : HelloMsg) (nowMs : Int)
    (h : hello.ts < nowMs - HANDSHAKE_MAX_CLOCK_DRIFT_MS
      ∨ nowMs + HANDSHAKE_MAX_CLOCK_DRIFT_MS < hello.ts) :
    exceptFailed (serverHandshake nowMs hello) = true := by
  have hD : HANDSHAKE_MAX_CLOCK_DRIFT_MS = 300000 := by norm_num [HANDSHAKE_MAX_CLOCK_DRIFT_MS]
  rw [hD] at h
  unfold serverHandshake
  by_cases h1 : hello.msgType ≠ "hello" ∨ hello.ver ≠ PROTO
  · simp only [if_pos h1]; rfl
  · simp only [if_neg h1]
    cases h2 : hello.sigOk with
    | false => simp only [h2, Bool.false_eq_true, not_false_iff, if_pos trivial]; rfl
    | true =>
      rw [if_neg (by simp : ¬ (¬ (true : Bool) = true))]
      unfold validateHandshakeTimestamp
      rw [hD]
      rcases h with hlt | hgt
      · have hn : ¬ hello.ts > nowMs + 300000 := by omega
        simp only [if_neg hn, if_pos hlt]
        rfl
      · have hg : hello.ts > nowMs + 300000 := by omega
        simp only [if_pos hg]
        rfl

/-- Witness for C6: a hello replayed six minutes late is rejected. -/
theorem server_handshake_rejects_stale_ts_witness :
    exceptFailed (serverHandshake 1000000
      { msgType := "hello", ver := "lb-p2p-v1", signPub := "sp", encPub := "ep",
        ts := 1000000 - 6 * 60 * 1000, sigOk := true }) = true :=
  server_handshake_rejects_stale_ts _ 1000000 (Or.inl (by decide))

/-! ### Query embedding -/

/-- Helper: the accumulation loop of `embed` computes, coordinate by
coordinate, the sum of the per-token directions. -/
theorem embedFold_coords (hv : String → List ℚ) (dim : Nat)
    (hlen : ∀ t, dim ≤ (hv t).length) (toks : List String) :
    ∀ acc : List ℚ, acc.length = dim →
      ((toks.foldl (fun a t => List.zipWith (· + ·) a (hv t)) acc).length = dim
       ∧ ∀ i, i < dim →
         (toks.foldl (fun a t => List.zipWith (· + ·) a (hv t)) acc).getD i 0
           = acc.getD i 0 + (toks.map (fun t => (hv t).getD i 0)).sum) := by
  induction toks with
  | nil => intro acc hacc; exact ⟨hacc, by simp⟩
  | cons t ts ih =>
    intro acc hacc
    have hz : (List.zipWith (· + ·) acc (hv t)).length = dim := by
      have := hlen t
      simp only [List.length_zipWith, hacc]
      omega
    obtain ⟨ihl, ihd⟩ := ih (List.zipWith (· + ·) acc (hv t)) hz
    rw [List.foldl_cons]
    refine ⟨ihl, ?_⟩
    intro i hi
    rw [ihd i hi]
    have hgz : (List.zipWith (· + ·) acc (hv t)).getD i 0
        = acc.getD i 0 + (hv t).getD i 0 := by
      rw [List.getD_eq_getElem _ _ (by rw [hz]; exact hi),
        List.getD_eq_getElem _ _ (by rw [hacc]; exact hi),
        List.getD_eq_getElem _ _ (lt_of_lt_of_le hi (hlen t)),
        List.getElem_zipWith]
    rw [hgz]
    simp [add_assoc]

/-- Helper: the accumulated vector of `embed` equals the hashed token bag
written coordinatewise. -/
theorem embedFold_eq_bag (hv : String → List ℚ) (text : String)
    (hlen : ∀ t, (hv t).length = EMBED_DIM) :
    embedVec hv text EMBED_DIM = specBag hv text EMBED_DIM := by
  have hlen2 : ∀ t, EMBED_DIM ≤ (hv t).length := fun t => (hlen t).ge
  obtain ⟨hl, hd⟩ := embedFold_coords hv EMBED_DIM hlen2 (tokenize text)
    (List.replicate EMBED_DIM 0) (List.length_replicate ..)
  unfold embedVec specBag
  apply List.ext_getElem
  · rw [hl]; simp
  · intro i hi hib
    have hi2 : i < EMBED_DIM := by rw [hl] at hi; exact hi
    have h1 := hd i hi2
    have hrep : (List.replicate EMBED_DIM (0 : ℚ)).getD i 0 = 0 := by
      rw [List.getD_eq_getElem _ _ (by simpa using hi2), List.getElem_replicate]
    rw [hrep, zero_add] at h1
    rw [← List.getD_eq_getElem _ _ hi, h1]
    rw [List.getElem_map, List.getElem_range]
    rfl

/-- Helper: dividing every entry by zero yields the zero vector. -/
theorem map_div_zero_eq_replicate (l : List ℚ) :
    l.map (fun x => x / (0 : ℚ)) = List.replicate l.length 0 := by
  induction l with
  | nil => rfl
  | cons a t ih => simp [ih, div_zero, List.replicate_succ]

/-- Helper: the bag of an empty token list is the zero vector. -/
theorem specBag_of_no_tokens (hv : String → List ℚ) (text : String) (dim : Nat)
    (he : tokenize text = []) : specBag hv text dim = List.replicate dim 0 := by
  unfold specBag
  rw [List.eq_replicate_iff]
  refine ⟨by simp, ?_⟩
  intro x hx
  obtain ⟨i, _, hxi⟩ := List.mem_map.mp hx
  rw [← hxi]
  unfold specBagCoord
  rw [he]
  simp

/-- C9: `embed` is a deterministic function of the text returning a
64-dimensional vector, and it equals the specification's description: the
hashed token bag of the text normalised to unit L2 norm (under the
rational division-by-zero convention, which coincides with the source's
all-zero fallback for an empty bag or zero norm). -/
theorem embed_spec_refinement (hv : String → List ℚ) (sqrtQ : ℚ → ℚ) (text : String)
    (hlen : ∀ t, (hv t).length = EMBED_DIM) :
    (embed hv sqrtQ text).length = EMBED_DIM
    ∧ embed hv sqrtQ text = specEmbed hv sqrtQ text := by
  have hbaglen : (specBag hv text EMBED_DIM).length = EMBED_DIM := by
    unfold specBag; simp
  unfold embed specEmbed
  by_cases he : (tokenize text).isEmpty = true
  · have he2 : tokenize text = [] := List.isEmpty_iff.mp he
    rw [if_pos he, specBag_of_no_tokens hv text EMBED_DIM he2]
    refine ⟨by simp, ?_⟩
    rw [List.map_replicate, zero_div]
  · have hbag := embedFold_eq_bag hv text hlen
    rw [if_neg he, hbag]
    constructor
    · by_cases hz : sqrtQ (((specBag hv text EMBED_DIM).map (fun x => x * x)).sum) = 0
      · rw [if_pos hz]; simp
      · rw [if_neg hz]; simp [hbaglen]
    · by_cases hz : sqrtQ (((specBag hv text EMBED_DIM).map (fun x => x * x)).sum) = 0
      · rw [if_pos hz, hz, map_div_zero_eq_replicate, hbaglen]
      · rw [if_neg hz]

/-- Witness for C9 at a concrete token-direction function and text. -/
theorem embed_spec_refinement_witness :
    (embed (fun _ => List.replicate 64 1) (fun _ => 0) "ab cd").length = EMBED_DIM
    ∧ embed (fun _ => List.replicate 64 1) (fun _ => 0) "ab cd"
      = specEmbed (fun _ => List.replicate 64 1) (fun _ => 0) "ab cd" :=
  embed_spec_refinement (fun _ => List.replicate 64 1) (fun _ => 0) "ab cd"
    (fun _ => List.length_replicate ..)

/-! ### Content-addressed store -/

/-- Helper: lookup over an append. -/
theorem lookup_append_isSome {A B : Type} [BEq A] (l1 l2 : List (A × B)) (k : A) :
    ((l1 ++ l2).lookup k).isSome = ((l1.lookup k).isSome || (l2.lookup k).isSome) := by
  induction l1 with
  | nil => simp [List.lookup]
  | cons a t ih => cases hk : k == a.1 <;> simp [List.lookup, hk, ih]

/-- Helper: a successful lookup exhibits a member. -/
theorem lookup_eq_some_mem {A B : Type} [BEq A] [LawfulBEq A] {l : List (A × B)}
    {k : A} {v : B} (h : l.lookup k = some v) : (k, v) ∈ l := by
  induction l with
  | nil => simp [List.lookup] at h
  | cons a t ih =>
    rw [List.lookup] at h
    cases hk : k == a.1 with
    | true =>
      rw [hk] at h
      have hkk : k = a.1 := eq_of_beq hk
      have hv : a.2 = v := Option.some.injEq .. ▸ h
      subst hkk
      subst hv
      exact List.mem_cons_self a t
    | false =>
      rw [hk] at h
      exact List.mem_cons_of_mem a (ih h)

/-- Helper: filtering out one key leaves lookups at other keys alone. -/
theorem lookup_filter_ne {A B : Type} [BEq A] [LawfulBEq A] [DecidableEq A]
    (l : List (A × B)) (k h : A) (hne : k ≠ h) :
    (l.filter (fun kv => kv.1 ≠ h)).lookup k = l.lookup k := by
  induction l with
  | nil => simp
  | cons a t ih =>
    rw [List.filter_cons]
    by_cases ha : a.1 = h
    · rw [if_neg (by simp [ha])]
      rw [ih, List.lookup]
      have hk : (k == a.1) = false := by
        rw [beq_eq_false_iff_ne, ha]
        exact hne
      rw [hk]
    · rw [if_pos (by simp [ha])]
      rw [List.lookup, List.lookup]
      cases hk : k == a.1 with
      | true => rfl
      | false => exact ih

/-- Helper: the orphan scan of `_validate_index` keeps the evolving index
and the surviving files mutually consistent. -/
theorem casOrphanFold_consistent {B M : Type} (hashFn : B → String) (defaultMeta : B → M) :
    ∀ (rest : List (String × B)) (acc : List (String × B) × List (String × M)),
      (∀ h, (acc.2.lookup h).isSome → ((acc.1.lookup h).isSome ∨ (rest.lookup h).isSome)) →
      (∀ h, (acc.1.lookup h).isSome → (acc.2.lookup h).isSome) →
      ∀ h, ((rest.foldl (casOrphanStep hashFn defaultMeta) acc).2.lookup h).isSome
         ↔ ((rest.foldl (casOrphanStep hashFn defaultMeta) acc).1.lookup h).isSome := by
  intro rest
  induction rest with
  | nil =>
    intro acc h1 h2 h
    rw [List.foldl_nil]
    constructor
    · intro hs
      rcases h1 h hs with hx | hx
      · exact hx
      · simp [List.lookup] at hx
    · exact h2 h
  | cons ob rest2 ih =>
    intro acc h1 h2 h
    rw [List.foldl_cons]
    apply ih
    · intro h3 hs
      unfold casOrphanStep at hs ⊢
      by_cases hb1 : (acc.2.lookup ob.1).isSome
      · rw [if_pos hb1] at hs ⊢
        rcases h1 h3 hs with hx | hx
        · left
          rw [lookup_append_isSome]
          simp [hx]
        · rw [List.lookup] at hx
          cases hk : h3 == ob.1 with
          | true =>
            left
            rw [lookup_append_isSome]
            have : ([ob].lookup h3).isSome := by simp [List.lookup, hk]
            simp [this]
          | false =>
            rw [hk] at hx
            right
            exact hx
      · rw [if_neg hb1] at hs ⊢
        by_cases hb2 : hashFn ob.2 = ob.1
        · rw [if_pos hb2] at hs ⊢
          rw [lookup_append_isSome] at hs
          rcases Bool.or_eq_true_iff.mp hs with hx | hx
          · rcases h1 h3 hx with hy | hy
            · left
              rw [lookup_append_isSome]
              simp [hy]
            · rw [List.lookup] at hy
              cases hk : h3 == ob.1 with
              | true =>
                left
                rw [lookup_append_isSome]
                have : ([ob].lookup h3).isSome := by simp [List.lookup, hk]
                simp [this]
              | false =>
                rw [hk] at hy
                right
                exact hy
          · left
            rw [lookup_append_isSome]
            have hko : (h3 == ob.1) = true := by
              rw [List.lookup] at hx
              cases hk : h3 == ob.1 with
              | true => rfl
              | false => rw [hk] at hx; simp [List.lookup] at hx
            have : ([ob].lookup h3).isSome := by simp [List.lookup, hko]
            simp [this]
        · rw [if_neg hb2] at hs ⊢
          rcases h1 h3 hs with hx | hx
          · left; exact hx
          · rw [List.lookup] at hx
            cases hk : h3 == ob.1 with
            | true =>
              exfalso
              have : h3 = ob.1 := eq_of_beq hk
              rw [this] at hs
              exact hb1 hs
            | false =>
              rw [hk] at hx
              right
              exact hx
    · intro h3 hs
      unfold casOrphanStep at hs ⊢
      by_cases hb1 : (acc.2.lookup ob.1).isSome
      · rw [if_pos hb1] at hs ⊢
        rw [lookup_append_isSome] at hs
        rcases Bool.or_eq_true_iff.mp hs with hx | hx
        · exact h2 h3 hx
        · have hko : (h3 == ob.1) = true := by
            rw [List.lookup] at hx
            cases hk : h3 == ob.1 with
            | true => rfl
            | false => rw [hk] at hx; simp [List.lookup] at hx
          have : h3 = ob.1 := eq_of_beq hko
          rw [this]
          exact hb1
      · rw [if_neg hb1] at hs ⊢
        by_cases hb2 : hashFn ob.2 = ob.1
        · rw [if_pos hb2] at hs ⊢
          rw [lookup_append_isSome] at hs
          rw [lookup_append_isSome]
          rcases Bool.or_eq_true_iff.mp hs with hx | hx
          · simp [h2 h3 hx]
          · have hko : (h3 == ob.1) = true := by
              rw [List.lookup] at hx
              cases hk : h3 == ob.1 with
              | true => rfl
              | false => rw [hk] at hx; simp [List.lookup] at hx
            have : ([(ob.1, defaultMeta ob.2)].lookup h3).isSome := by
              simp [List.lookup, hko]
            simp [this]
        · rw [if_neg hb2] at hs ⊢
          exact h2 h3 hs

/-- Helper: lookup on a cons cell. -/
theorem lookup_cons_eq {A B : Type} [BEq A] (k : A) (a : A × B) (t : List (A × B)) :
    (a :: t).lookup k = if k == a.1 then some a.2 else t.lookup k := by
  rw [List.lookup]
  cases hk : k == a.1 <;> simp [hk]

/-- C8: after the startup reconciliation pass the index and the on-disk
object set are mutually consistent, and `put` preserves that consistency. -/
theorem cas_validate_consistency {B M : Type} (hashFn : B → String)
    (defaultMeta : B → M) (st st2 : CasState B M) (sizeOf : B → Nat)
    (maxSize : Nat) (x : B) (meta : M) (h2 : String) (st3 : CasState B M)
    (hcons2 : casConsistent st2)
    (hput : casPut hashFn sizeOf maxSize st2 x meta = .ok (h2, st3)) :
    casConsistent (casValidate hashFn defaultMeta st) ∧ casConsistent st3 := by
  constructor
  · unfold casValidate casConsistent
    intro h
    apply casOrphanFold_consistent
    · intro h3 hs
      right
      obtain ⟨v, hv⟩ := Option.isSome_iff_exists.mp hs
      have hmem := lookup_eq_some_mem hv
      exact (List.mem_filter.mp hmem).2
    · intro h3 hs
      simp [List.lookup] at hs
  · unfold casPut at hput
    by_cases hsz : maxSize < sizeOf x
    · rw [if_pos hsz] at hput
      simp at hput
    · rw [if_neg hsz] at hput
      simp only [Except.ok.injEq, Prod.mk.injEq] at hput
      obtain ⟨hh, hst⟩ := hput
      subst hst
      unfold casConsistent
      intro h3
      dsimp only
      by_cases he : h3 = hashFn x
      · subst he
        constructor
        · intro _
          by_cases hob : (st2.objs.lookup (hashFn x)).isSome
          · rw [if_pos hob]
            exact hob
          · rw [if_neg hob]
            rw [lookup_cons_eq, beq_self_eq_true]
            simp
        · intro _
          rw [lookup_cons_eq, beq_self_eq_true]
          simp
      · have hbe : (h3 == hashFn x) = false := by
          rw [beq_eq_false_iff_ne]
          exact he
        rw [lookup_cons_eq, hbe]
        simp only [Bool.false_eq_true, if_neg (by simp : ¬ False)]
        rw [lookup_filter_ne _ _ _ he]
        by_cases hob : (st2.objs.lookup (hashFn x)).isSome
        · rw [if_pos hob]
          exact hcons2 h3
        · rw [if_neg hob]
          rw [lookup_cons_eq, hbe]
          simp only [Bool.false_eq_true, if_neg (by simp : ¬ False)]
          exact hcons2 h3

/-- Witness for C8: a concrete store with one stale index entry plus an
orphan and a corrupt file, and a put into an empty consistent store. -/
theorem cas_validate_consistency_witness :
    casConsistent (casValidate (fun b : Nat => if b = 1 then "h1" else "bad")
      (fun _ => (0 : Nat))
      { objs := [("h1", (1 : Nat)), ("h9", 2)], index := [("gone", 5)] })
    ∧ casConsistent
      { objs := [("h1", (1 : Nat))], index := [("h1", (7 : Nat))] } :=
  cas_validate_consistency (fun b : Nat => if b = 1 then "h1" else "bad")
    (fun _ => (0 : Nat))
    { objs := [("h1", (1 : Nat)), ("h9", 2)], index := [("gone", 5)] }
    { objs := [], index := [] } (fun _ => 1) 10 1 7 "h1"
    { objs := [("h1", (1 : Nat))], index := [("h1", (7 : Nat))] }
    (fun _ => Iff.rfl) rfl

/-- C4: `put` of a blob within the size cap returns the content hash, and
`get` of that hash returns exactly the blob, in any well-hashed store and
absent a hash collision with the new blob. -/
theorem cas_put_get_roundtrip {B M : Type} (hashFn : B → String) (sizeOf : B → Nat)
    (maxSize : Nat) (st : CasState B M) (x : B) (meta : M)
    (hsize : sizeOf x ≤ maxSize)
    (hwf : casWellHashed hashFn st)
    (hinj : ∀ b : B, hashFn b = hashFn x → b = x) :
    (casPut hashFn sizeOf maxSize st x meta).map Prod.fst = .ok (hashFn x)
    ∧ (casPut hashFn sizeOf maxSize st x meta).map (fun r => casGet r.2 r.1)
      = .ok (.ok x) := by
  unfold casPut
  rw [if_neg (by omega)]
  refine ⟨rfl, ?_⟩
  simp only [Except.map]
  unfold casGet
  dsimp only
  by_cases hob : (st.objs.lookup (hashFn x)).isSome
  · rw [if_pos hob]
    obtain ⟨b, hb⟩ := Option.isSome_iff_exists.mp hob
    rw [hb]
    have hbx : b = x := hinj b (hwf (hashFn x) b hb)
    rw [hbx]
  · rw [if_neg hob]
    rw [lookup_cons_eq, beq_self_eq_true]
    simp

/-- Witness for C4: a put of a fresh blob into the empty store. -/
theorem cas_put_get_roundtrip_witness :
    (casPut (fun b : Nat => if b = 1 then "h1" else "h0") (fun _ => 1) 10
      { objs := [], index := ([] : List (String × Nat)) } 1 0).map Prod.fst
      = .ok "h1"
    ∧ (casPut (fun b : Nat => if b = 1 then "h1" else "h0") (fun _ => 1) 10
      { objs := [], index := ([] : List (String × Nat)) } 1 0).map
        (fun r => casGet r.2 r.1) = .ok (.ok 1) := by
  have h := cas_put_get_roundtrip (fun b : Nat => if b = 1 then "h1" else "h0")
    (fun _ => 1) 10 { objs := [], index := ([] : List (String × Nat)) } 1 0
    (by decide)
    (by intro h b hb; simp [List.lookup] at hb)
    (by
      intro b hb
      by_cases hb1 : b = 1
      · exact hb1
      · have hb2 : (if b = 1 then "h1" else "h0")
            = (if (1 : Nat) = 1 then "h1" else "h0") := hb
        rw [if_neg hb1, if_pos rfl] at hb2
        exact absurd hb2 (by decide))
  simpa using h

/-! ### Sliding-window rate limiter -/

/-- Helper: a key absent from an association list stays absent after a
filter. -/
theorem lookup_filter_of_none {A B : Type} [BEq A] (l : List (A × B)) (q : A × B → Bool)
    (k : A) (h : l.lookup k = none) : (l.filter q).lookup k = none := by
  induction l with
  | nil => simp
  | cons a t ih =>
    rw [lookup_cons_eq] at h
    cases hk : k == a.1 with
    | true => rw [hk] at h; simp at h
    | false =>
      rw [hk] at h
      rw [List.filter_cons]
      by_cases hq : q a = true
      · rw [if_pos hq, lookup_cons_eq, hk]
        exact ih h
      · rw [if_neg hq]
        exact ih h

/-- Helper: filtering out a key makes its lookup fail. -/
theorem lookup_filter_ne_self {A B : Type} [BEq A] [LawfulBEq A] [DecidableEq A]
    (l : List (A × B)) (k : A) :
    (l.filter (fun kv => kv.1 ≠ k)).lookup k = none := by
  induction l with
  | nil => simp
  | cons a t ih =>
    rw [List.filter_cons]
    by_cases ha : a.1 = k
    · rw [if_neg (by simp [ha])]
      exact ih
    · rw [if_pos (by simp [ha])]
      rw [lookup_cons_eq]
      have hk : (k == a.1) = false := by
        rw [beq_eq_false_iff_ne]
        exact fun e => ha e.symm
      rw [hk]
      exact ih

/-- Helper: lookup skips a prefix where the key is absent. -/
theorem lookup_append_of_none {A B : Type} [BEq A] (l1 l2 : List (A × B)) (k : A)
    (h : l1.lookup k = none) : (l1 ++ l2).lookup k = l2.lookup k := by
  induction l1 with
  | nil => simp
  | cons a t ih =>
    rw [lookup_cons_eq] at h
    cases hk : k == a.1 with
    | true => rw [hk] at h; simp at h
    | false =>
      rw [hk] at h
      rw [List.cons_append, lookup_cons_eq, hk]
      exact ih h

/-- Helper: `rlSetList` rewrites the binding of a present key. -/
theorem lookup_rlSetList {l : List (String × List ℚ)} {key : String} {v : List ℚ}
    (ts : List ℚ) (h : l.lookup key = some v) :
    (rlSetList l key ts).lookup key = some ts := by
  induction l with
  | nil => simp [List.lookup] at h
  | cons a t ih =>
    rw [lookup_cons_eq] at h
    unfold rlSetList
    rw [List.map_cons]
    cases hk : key == a.1 with
    | true =>
      have : a.1 = key := (eq_of_beq hk).symm
      rw [if_pos this, lookup_cons_eq, beq_self_eq_true]
      simp
    | false =>
      rw [hk] at h
      have : ¬ a.1 = key := by
        intro e
        rw [beq_eq_false_iff_ne] at hk
        exact hk e.symm
      rw [if_neg this, lookup_cons_eq, hk]
      exact ih h

/-- Helper: `rlSetList` does not change the key sequence. -/
theorem keys_rlSetList (l : List (String × List ℚ)) (key : String) (ts : List ℚ) :
    (rlSetList l key ts).map Prod.fst = l.map Prod.fst := by
  induction l with
  | nil => rfl
  | cons a t ih =>
    unfold rlSetList at ih ⊢
    rw [List.map_cons, List.map_cons, List.map_cons, ih]
    by_cases ha : a.1 = key
    · rw [if_pos ha]
      simp [ha]
    · rw [if_neg ha]

/-- Helper: an absent key is exactly one outside the key sequence. -/
theorem lookup_none_iff_keys {A B : Type} [BEq A] [LawfulBEq A] (l : List (A × B)) (k : A) :
    l.lookup k = none ↔ k ∉ l.map Prod.fst := by
  induction l with
  | nil => simp
  | cons a t ih =>
    rw [lookup_cons_eq, List.map_cons]
    cases hk : k == a.1 with
    | true =>
      have : k = a.1 := eq_of_beq hk
      simp [this]
    | false =>
      have : k ≠ a.1 := by rw [← beq_eq_false_iff_ne]; exact hk
      simp [this, ih]

/-- Helper: filtering a list twice with the same predicate is idempotent. -/
theorem filter_idempotent {A : Type} (p : A → Bool) (l : List A) :
    (l.filter p).filter p = l.filter p := by
  induction l with
  | nil => rfl
  | cons a t ih =>
    rw [List.filter_cons]
    by_cases hp : p a = true
    · rw [if_pos hp, List.filter_cons, if_pos hp, ih]
    · rw [if_neg hp, ih]

/-- Helper: the key sequence of the cleanup result is a sublist of the
original key sequence. -/
theorem keys_cleanup_sublist (l : List (String × List ℚ)) (p : ℚ → Bool) :
    (((l.map (fun kv => (kv.1, kv.2.filter p))).filter
        (fun kv => ¬ kv.2.isEmpty)).map Prod.fst).Sublist (l.map Prod.fst) := by
  have h1 : ((l.map (fun kv => (kv.1, kv.2.filter p))).filter
      (fun kv => ¬ kv.2.isEmpty)).Sublist (l.map (fun kv => (kv.1, kv.2.filter p))) :=
    List.filter_sublist _
  have h2 := h1.map Prod.fst
  rw [List.map_map] at h2
  exact h2

/-- Helper: cleanup keeps the pruned binding of a key whose pruned list is
non-empty. -/
theorem lookup_cleanup_of_some {l : List (String × List ℚ)} {key : String}
    {v : List ℚ} (p : ℚ → Bool) (h : l.lookup key = some v)
    (hne : v.filter p ≠ []) :
    ((l.map (fun kv => (kv.1, kv.2.filter p))).filter
      (fun kv => ¬ kv.2.isEmpty)).lookup key = some (v.filter p) := by
  induction l with
  | nil => simp [List.lookup] at h
  | cons a t ih =>
    rw [lookup_cons_eq] at h
    rw [List.map_cons, List.filter_cons]
    cases hk : key == a.1 with
    | true =>
      rw [hk] at h
      have hv : a.2 = v := Option.some.injEq .. ▸ h
      rw [if_pos (by simp [hv, List.isEmpty_iff, hne])]
      rw [lookup_cons_eq]
      dsimp only
      rw [hk, hv]
      simp
    | false =>
      rw [hk] at h
      by_cases hq : ((a.2.filter p).isEmpty : Bool) = true
      · rw [if_neg (by simp [hq])]
        exact ih h
      · rw [if_pos (by simpa using hq), lookup_cons_eq]
        dsimp only
        rw [hk]
        exact ih h

/-- Helper: cleanup of an absent key leaves it absent. -/
theorem lookup_cleanup_of_none {l : List (String × List ℚ)} {key : String}
    (p : ℚ → Bool) (h : l.lookup key = none) :
    ((l.map (fun kv => (kv.1, kv.2.filter p))).filter
      (fun kv => ¬ kv.2.isEmpty)).lookup key = none := by
  apply lookup_filter_of_none
  induction l with
  | nil => simp
  | cons a t ih =>
    rw [lookup_cons_eq] at h
    rw [List.map_cons, lookup_cons_eq]
    cases hk : key == a.1 with
    | true => rw [hk] at h; simp at h
    | false =>
      rw [hk] at h
      exact ih h

/-- Helper: with unique keys, cleanup drops a key whose pruned list is
empty. -/
theorem lookup_cleanup_of_empty {l : List (String × List ℚ)} {key : String}
    {v : List ℚ} (p : ℚ → Bool) (hnd : (l.map Prod.fst).Nodup)
    (h : l.lookup key = some v) (he : v.filter p = []) :
    ((l.map (fun kv => (kv.1, kv.2.filter p))).filter
      (fun kv => ¬ kv.2.isEmpty)).lookup key = none := by
  induction l with
  | nil => simp [List.lookup] at h
  | cons a t ih =>
    rw [List.map_cons] at hnd
    rw [lookup_cons_eq] at h
    rw [List.map_cons, List.filter_cons]
    cases hk : key == a.1 with
    | true =>
      rw [hk] at h
      have hv : a.2 = v := Option.some.injEq .. ▸ h
      have hkey : key = a.1 := eq_of_beq hk
      rw [if_neg (by simp [hv, he])]
      have htail : t.lookup key = none := by
        rw [lookup_none_iff_keys, hkey]
        exact (List.nodup_cons.mp hnd).1
      exact lookup_cleanup_of_none p htail
    | false =>
      rw [hk] at h
      by_cases hq : ((a.2.filter p).isEmpty : Bool) = true
      · rw [if_neg (by simp [hq])]
        exact ih (List.nodup_cons.mp hnd).2 h
      · rw [if_pos (by simpa using hq), lookup_cons_eq]
        dsimp only
        rw [hk]
        exact ih (List.nodup_cons.mp hnd).2 h

/-- Helper: eviction cannot introduce a key. -/
theorem lookup_evict_of_none (cfg : RLConfig) (st : RLState) (cutoff : ℚ)
    (key : String) (h : st.requests.lookup key = none) :
    (rlEvictOldest cfg st cutoff).requests.lookup key = none := by
  unfold rlEvictOldest
  dsimp only
  exact lookup_filter_of_none _ _ _ h

/-- Helper: eviction does not touch the cleanup clock. -/
theorem evict_lastCleanup (cfg : RLConfig) (st : RLState) (cutoff : ℚ) :
    (rlEvictOldest cfg st cutoff).lastCleanup = st.lastCleanup := rfl

/-- Helper: eviction only deletes bindings. -/
theorem keys_evict_sublist (cfg : RLConfig) (st : RLState) (cutoff : ℚ) :
    ((rlEvictOldest cfg st cutoff).requests.map Prod.fst).Sublist
      (st.requests.map Prod.fst) := by
  unfold rlEvictOldest
  dsimp only
  exact (List.filter_sublist _).map Prod.fst

/-- Helper: full behaviour of the post-cleanup stage of `check` on the
checked key: position bookkeeping aside, the stored list becomes the
pruned list, the request is admitted exactly when the pruned list is
shorter than the limit, and unique keys are preserved. -/
theorem rlAdmit_spec (cfg : RLConfig) (st1 : RLState) (key : String)
    (nowT cutoff : ℚ) (hnd : (st1.requests.map Prod.fst).Nodup) (l1 : List ℚ)
    (hl : st1.requests.lookup key = some l1
      ∨ (st1.requests.lookup key = none ∧ l1 = [])) :
    ((rlAdmit cfg st1 key nowT cutoff).2.requests.map Prod.fst).Nodup
    ∧ (cfg.maxRequests ≤ (l1.filter (fun ts => decide (cutoff < ts))).length →
        (rlAdmit cfg st1 key nowT cutoff).1
          = { allowed := false,
              waitSeconds := max 0 ((l1.filter (fun ts => decide (cutoff < ts))).headD nowT
                + cfg.windowSeconds - nowT) }
        ∧ (rlAdmit cfg st1 key nowT cutoff).2.requests.lookup key
          = some (l1.filter (fun ts => decide (cutoff < ts))))
    ∧ ((l1.filter (fun ts => decide (cutoff < ts))).length < cfg.maxRequests →
        (rlAdmit cfg st1 key nowT cutoff).1 = { allowed := true, waitSeconds := 0 }
        ∧ (rlAdmit cfg st1 key nowT cutoff).2.requests.lookup key
          = some ((l1.filter (fun ts => decide (cutoff < ts))) ++ [nowT])) := by
  have hbody : ∃ req2 : List (String × List ℚ),
      req2.lookup key = some l1
      ∧ (req2.map Prod.fst).Nodup
      ∧ rlAdmit cfg st1 key nowT cutoff
        = (if cfg.maxRequests ≤ ((l1.filter (fun ts => decide (cutoff < ts)))).length then
            ({ allowed := false,
               waitSeconds := max 0 ((l1.filter (fun ts => decide (cutoff < ts))).headD nowT
                 + cfg.windowSeconds - nowT) },
             { st1 with requests :=
                rlSetList req2 key (l1.filter (fun ts => decide (cutoff < ts))) })
          else
            ({ allowed := true, waitSeconds := 0 },
             { st1 with requests :=
                (rlSetList (rlSetList req2 key (l1.filter (fun ts => decide (cutoff < ts)))) key ((l1.filter (fun ts => decide (cutoff < ts))) ++ [nowT])) })) := by
    rcases hl with hsome | ⟨hnone, hemp⟩
    · have hq : (st1.requests.filter (fun kv => kv.1 ≠ key)
          ++ [(key, l1)]).lookup key = some l1 := by
        rw [lookup_append_of_none _ _ _ (lookup_filter_ne_self _ _), lookup_cons_eq,
          beq_self_eq_true]
        simp
      refine ⟨st1.requests.filter (fun kv => kv.1 ≠ key) ++ [(key, l1)], hq, ?_, ?_⟩
      · rw [List.map_append]
        rw [List.nodup_append]
        refine ⟨((List.filter_sublist _).map Prod.fst).nodup hnd, List.nodup_singleton _, ?_⟩
        intro a ha hb
        simp only [List.map_cons, List.map_nil, List.mem_singleton] at hb
        rw [hb] at ha
        exact (lookup_none_iff_keys _ key).mp (lookup_filter_ne_self st1.requests key) ha
      · unfold rlAdmit
        simp only [hsome, Option.isSome_some, Option.getD_some, eq_self_iff_true, if_true]
        simp only [hq, Option.getD_some]
    · subst hemp
      by_cases hev : cfg.maxKeys ≤ st1.requests.length
      · have hq : ((rlEvictOldest cfg st1 cutoff).requests ++ [(key, [])]).lookup key
            = some ([] : List ℚ) := by
          rw [lookup_append_of_none _ _ _ (lookup_evict_of_none cfg st1 cutoff key hnone),
            lookup_cons_eq, beq_self_eq_true]
          simp
        refine ⟨(rlEvictOldest cfg st1 cutoff).requests ++ [(key, [])], hq, ?_, ?_⟩
        · rw [List.map_append, List.nodup_append]
          refine ⟨(keys_evict_sublist cfg st1 cutoff).nodup hnd, List.nodup_singleton _, ?_⟩
          intro a ha hb
          simp only [List.map_cons, List.map_nil, List.mem_singleton] at hb
          rw [hb] at ha
          exact (lookup_none_iff_keys _ key).mp
            (lookup_evict_of_none cfg st1 cutoff key hnone) ha
        · unfold rlAdmit
          simp only [hnone, Option.isSome_none, Bool.false_eq_true, if_false]
          simp only [hev, if_true]
          simp only [hq, Option.getD_some, List.filter_nil, evict_lastCleanup]
      · have hq : (st1.requests ++ [(key, [])]).lookup key = some ([] : List ℚ) := by
          rw [lookup_append_of_none _ _ _ hnone, lookup_cons_eq, beq_self_eq_true]
          simp
        refine ⟨st1.requests ++ [(key, [])], hq, ?_, ?_⟩
        · rw [List.map_append, List.nodup_append]
          refine ⟨hnd, List.nodup_singleton _, ?_⟩
          intro a ha hb
          simp only [List.map_cons, List.map_nil, List.mem_singleton] at hb
          rw [hb] at ha
          exact (lookup_none_iff_keys _ key).mp hnone ha
        · unfold rlAdmit
          simp only [hnone, Option.isSome_none, Bool.false_eq_true, if_false]
          simp only [if_neg hev]
          simp only [hq, Option.getD_some, List.filter_nil]
  obtain ⟨req2, hlk2, hnd2, hmain⟩ := hbody
  have hlk3 := lookup_rlSetList (l1.filter (fun ts => decide (cutoff < ts))) hlk2
  refine ⟨?_, ?_, ?_⟩
  · rw [hmain]
    by_cases hfull : cfg.maxRequests ≤ ((l1.filter (fun ts => decide (cutoff < ts)))).length
    · rw [if_pos hfull]
      dsimp only
      rw [keys_rlSetList]
      exact hnd2
    · rw [if_neg hfull]
      dsimp only
      rw [keys_rlSetList, keys_rlSetList]
      exact hnd2
  · intro hfull
    rw [hmain, if_pos hfull]
    exact ⟨rfl, hlk3⟩
  · intro hlt
    rw [hmain, if_neg (by omega)]
    refine ⟨rfl, ?_⟩
    exact lookup_rlSetList _ hlk3

/-- Helper: full behaviour of one `check` call on the checked key. -/
theorem rlCheck_step (cfg : RLConfig) (st : RLState) (key : String) (nowT : ℚ)
    (hnd : (st.requests.map Prod.fst).Nodup) (l : List ℚ)
    (hl : st.requests.lookup key = some l
      ∨ (st.requests.lookup key = none ∧ l = [])) :
    (((rlCheck cfg st key nowT).2.requests.map Prod.fst).Nodup)
    ∧ (cfg.maxRequests
        ≤ (l.filter (fun ts => decide (nowT - cfg.windowSeconds < ts))).length →
        (rlCheck cfg st key nowT).1
          = { allowed := false,
              waitSeconds := max 0
                ((l.filter (fun ts => decide (nowT - cfg.windowSeconds < ts))).headD nowT
                  + cfg.windowSeconds - nowT) }
        ∧ (rlCheck cfg st key nowT).2.requests.lookup key
          = some (l.filter (fun ts => decide (nowT - cfg.windowSeconds < ts))))
    ∧ ((l.filter (fun ts => decide (nowT - cfg.windowSeconds < ts))).length
        < cfg.maxRequests →
        (rlCheck cfg st key nowT).1 = { allowed := true, waitSeconds := 0 }
        ∧ (rlCheck cfg st key nowT).2.requests.lookup key
          = some ((l.filter (fun ts => decide (nowT - cfg.windowSeconds < ts))) ++ [nowT])) := by
  unfold rlCheck
  by_cases hcln : RL_CLEANUP_INTERVAL < nowT - st.lastCleanup
  · simp only [if_pos hcln]
    have hnd1 : ((rlCleanupExpired st nowT (nowT - cfg.windowSeconds)).requests.map
        Prod.fst).Nodup :=
      (keys_cleanup_sublist st.requests _).nodup hnd
    rcases hl with hsome | ⟨hnone, hemp⟩
    · by_cases hpe : l.filter (fun ts => decide (nowT - cfg.windowSeconds < ts)) = []
      · have hlk1 : (rlCleanupExpired st nowT
            (nowT - cfg.windowSeconds)).requests.lookup key = none :=
          lookup_cleanup_of_empty _ hnd hsome hpe
        have h := rlAdmit_spec cfg (rlCleanupExpired st nowT (nowT - cfg.windowSeconds))
          key nowT (nowT - cfg.windowSeconds) hnd1 [] (Or.inr ⟨hlk1, rfl⟩)
        rw [List.filter_nil] at h
        rw [hpe]
        exact h
      · have hlk1 : (rlCleanupExpired st nowT
            (nowT - cfg.windowSeconds)).requests.lookup key
            = some (l.filter (fun ts => decide (nowT - cfg.windowSeconds < ts))) :=
          lookup_cleanup_of_some _ hsome hpe
        have h := rlAdmit_spec cfg (rlCleanupExpired st nowT (nowT - cfg.windowSeconds))
          key nowT (nowT - cfg.windowSeconds) hnd1
          (l.filter (fun ts => decide (nowT - cfg.windowSeconds < ts))) (Or.inl hlk1)
        rw [filter_idempotent] at h
        exact h
    · subst hemp
      have hlk1 : (rlCleanupExpired st nowT
          (nowT - cfg.windowSeconds)).requests.lookup key = none :=
        lookup_cleanup_of_none _ hnone
      have h := rlAdmit_spec cfg (rlCleanupExpired st nowT (nowT - cfg.windowSeconds))
        key nowT (nowT - cfg.windowSeconds) hnd1 [] (Or.inr ⟨hlk1, rfl⟩)
      exact h
  · simp only [if_neg hcln]
    exact rlAdmit_spec cfg st key nowT (nowT - cfg.windowSeconds) hnd l hl

/-- Helper: a key whose requests stay within the window density bound is
admitted at every check of a trace that only exercises that key. -/
theorem rlTrace_aux (cfg : RLConfig) (key : String) (hW : 0 < cfg.windowSeconds) :
    ∀ (ts : List ℚ) (st : RLState) (seen : List ℚ),
      (st.requests.map Prod.fst).Nodup →
      (st.requests.lookup key = none
        ∨ ∃ l, st.requests.lookup key = some l ∧ l.Sublist seen) →
      (∀ pre t post, ts = pre ++ t :: post →
        ((seen ++ pre ++ [t]).countP (fun u => decide (t - cfg.windowSeconds < u)))
          ≤ cfg.maxRequests) →
      (rlRunTrace cfg st key ts).1 = List.replicate ts.length true := by
  intro ts
  induction ts with
  | nil => intro st seen _ _ _; rfl
  | cons t ts2 ih =>
    intro st seen hnd hinv hdens
    obtain ⟨l, hl, hsub⟩ : ∃ l, (st.requests.lookup key = some l
        ∨ (st.requests.lookup key = none ∧ l = [])) ∧ l.Sublist seen := by
      rcases hinv with hn | ⟨l, hs, hsub⟩
      · exact ⟨[], Or.inr ⟨hn, rfl⟩, List.nil_sublist seen⟩
      · exact ⟨l, Or.inl hs, hsub⟩
    have hcnt : (l.filter (fun u => decide (t - cfg.windowSeconds < u))).length
        < cfg.maxRequests := by
      have h1 : (l.filter (fun u => decide (t - cfg.windowSeconds < u))).length
          ≤ (seen.filter (fun u => decide (t - cfg.windowSeconds < u))).length :=
        (hsub.filter _).length_le
      have h2 := hdens [] t ts2 rfl
      rw [List.append_nil, List.countP_append] at h2
      have h3 : List.countP (fun u => decide (t - cfg.windowSeconds < u)) [t] = 1 := by
        rw [List.countP_cons]
        rw [if_pos (show decide (t - cfg.windowSeconds < t) = true by
          simp only [decide_eq_true_iff]
          linarith)]
        rfl
      rw [h3] at h2
      have h4 : (seen.filter (fun u => decide (t - cfg.windowSeconds < u))).length
          = List.countP (fun u => decide (t - cfg.windowSeconds < u)) seen := by
        rw [List.countP_eq_length_filter]
      omega
    have hstep := rlCheck_step cfg st key t hnd l hl
    obtain ⟨hnd2, _, hallow⟩ := hstep
    obtain ⟨hres, hlk2⟩ := hallow hcnt
    show ((rlCheck cfg st key t).1.allowed
        :: (rlRunTrace cfg (rlCheck cfg st key t).2 key ts2).1)
      = List.replicate (ts2.length + 1) true
    rw [hres, List.replicate_succ]
    refine congrArg (List.cons true) ?_
    apply ih (rlCheck cfg st key t).2 (seen ++ [t]) hnd2
    · right
      refine ⟨_, hlk2, ?_⟩
      exact ((hsub.filter _).trans (List.filter_sublist _)).append (List.Sublist.refl [t])
    · intro pre2 t2 post2 heq
      have h5 := hdens (t :: pre2) t2 post2 (by rw [heq, List.cons_append])
      have h6 : seen ++ (t :: pre2) ++ [t2] = (seen ++ [t]) ++ pre2 ++ [t2] := by
        simp
      rw [h6] at h5
      exact h5

/-- C7: under the sliding window, a key that issues at most `max_requests`
requests inside every window ending at one of its request times has every
request admitted; and a request finding `max_requests` tracked timestamps
inside the window is rejected with `allowed = false` and a wait equal to
the distance until the oldest tracked timestamp leaves the window, floored
at zero. -/
theorem rate_limit_sliding_window (cfg : RLConfig) (st0 st : RLState) (key : String)
    (times : List ℚ) (l : List ℚ) (nowT : ℚ)
    (hW : 0 < cfg.windowSeconds)
    (hnd0 : (st0.requests.map Prod.fst).Nodup)
    (h0 : st0.requests.lookup key = none)
    (hdens : ∀ pre t post, times = pre ++ t :: post →
      ((pre ++ [t]).countP (fun u => decide (t - cfg.windowSeconds < u)))
        ≤ cfg.maxRequests)
    (hnd : (st.requests.map Prod.fst).Nodup)
    (hlook : st.requests.lookup key = some l)
    (hfull : cfg.maxRequests
      ≤ (l.filter (fun u => decide (nowT - cfg.windowSeconds < u))).length) :
    (rlRunTrace cfg st0 key times).1 = List.replicate times.length true
    ∧ (rlCheck cfg st key nowT).1
      = { allowed := false,
          waitSeconds := max 0
            ((l.filter (fun u => decide (nowT - cfg.windowSeconds < u))).headD nowT
              + cfg.windowSeconds - nowT) } := by
  constructor
  · apply rlTrace_aux cfg key hW times st0 [] hnd0 (Or.inl h0)
    intro pre t post heq
    have := hdens pre t post heq
    simpa using this
  · exact ((rlCheck_step cfg st key nowT hnd l (Or.inl hlook)).2.1 hfull).1

/-- Witness for C7: window 10 s, limit 2; a single admitted request, and a
rejection against a key with two in-window timestamps. -/
theorem rate_limit_sliding_window_witness :
    (rlRunTrace ⟨10, 2, 5⟩ ⟨[], 0⟩ "k" [5]).1 = List.replicate 1 true
    ∧ (rlCheck ⟨10, 2, 5⟩ ⟨[("k", [1, 2])], 0⟩ "k" 3).1
      = { allowed := false, waitSeconds := max 0 (([1, 2].filter
          (fun u => decide ((3 : ℚ) - 10 < u))).headD 3 + 10 - 3) } := by
  have h := rate_limit_sliding_window ⟨10, 2, 5⟩ ⟨[], 0⟩ ⟨[("k", [1, 2])], 0⟩ "k"
    [5] [1, 2] 3 (by norm_num) List.nodup_nil rfl
    (by
      intro pre t post heq
      cases pre with
      | nil =>
        simp only [List.nil_append] at heq
        injection heq with ht hp
        subst ht
        norm_num [List.countP_cons, List.countP_nil]
      | cons a pre1 =>
        simp only [List.cons_append] at heq
        injection heq with h1 h2
        exact absurd h2.symm (by simp))
    (by simp) rfl (by norm_num [List.filter])
  exact h

/-! ### Chain state machine -/

/-- Helper: a looked-up balance in a non-negative ledger is non-negative. -/
theorem getBal_nonneg (bs : List (String × Int)) (hpos : ∀ e ∈ bs, 0 ≤ e.2)
    (k : String) : 0 ≤ getBal bs k := by
  unfold getBal
  cases hb : bs.lookup k with
  | none => simp
  | some v =>
    have hmem := lookup_eq_some_mem hb
    have := hpos _ hmem
    simpa using this

/-- Helper: a ledger with no binding for a key reads balance zero there. -/
theorem getBal_of_any_false (bs : List (String × Int)) (k : String)
    (h : bs.any (fun e => decide (e.1 = k)) = false) : getBal bs k = 0 := by
  unfold getBal
  have hk : k ∉ bs.map Prod.fst := by
    intro hmem
    obtain ⟨e, he, hke⟩ := List.mem_map.mp hmem
    rw [List.any_eq_false] at h
    exact absurd (by simpa using hke) (by simpa using h e he)
  rw [(lookup_none_iff_keys bs k).mpr hk]
  rfl

/-- Helper: with unique keys, replacing a binding leaves the other
entries alone, so the ledger sum changes by the difference. -/
theorem sumBal_setBal (bs : List (String × Int)) (k : String) (v : Int)
    (hnd : (bs.map Prod.fst).Nodup) :
    sumBal (setBal bs k v) = sumBal bs - getBal bs k + v := by
  unfold setBal
  induction bs with
  | nil =>
    simp [sumBal, getBal, List.lookup]
  | cons a t ih =>
    rw [List.map_cons, List.nodup_cons] at hnd
    by_cases ha : a.1 = k
    · rw [if_pos (by simp [List.any_cons, ha])]
      rw [List.map_cons, if_pos ha]
      have hmap : t.map (fun e => if e.1 = k then (k, v) else e) = t := by
        conv_rhs => rw [← List.map_id t]
        apply List.map_congr_left
        intro e he
        rw [if_neg]
        · rfl
        · intro hek
          exact hnd.1 (by rw [ha, ← hek]; exact List.mem_map_of_mem Prod.fst he)
      rw [hmap]
      have hget : getBal (a :: t) k = a.2 := by
        unfold getBal
        rw [lookup_cons_eq]
        rw [show (k == a.1) = true from by rw [beq_iff_eq]; exact ha.symm]
        rfl
      rw [hget]
      unfold sumBal
      simp only [List.map_cons, List.sum_cons]
      ring
    · have hget : getBal (a :: t) k = getBal t k := by
        unfold getBal
        rw [lookup_cons_eq]
        rw [show (k == a.1) = false from by
          rw [beq_eq_false_iff_ne]; exact fun e => ha e.symm]
        rfl
      by_cases hany : t.any (fun e => decide (e.1 = k)) = true
      · rw [if_pos (by simp only [List.any_cons, hany, Bool.or_true])]
        rw [List.map_cons, if_neg ha]
        have iht := ih hnd.2
        rw [if_pos hany] at iht
        rw [hget]
        unfold sumBal at iht ⊢
        simp only [List.map_cons, List.sum_cons, iht]
        ring
      · have hany2 : (t.any fun e => decide (e.1 = k)) = false := Bool.eq_false_iff.mpr hany
        have hanyc : ((a :: t).any (fun e => decide (e.1 = k))) = false := by
          rw [List.any_cons, Bool.or_eq_false_iff]
          exact ⟨decide_eq_false ha, hany2⟩
        rw [if_neg (by simp [hanyc])]
        rw [hget, getBal_of_any_false t k hany2]
        unfold sumBal
        simp only [List.map_append, List.sum_append, List.map_cons, List.sum_cons,
          List.map_nil, List.sum_nil]
        ring

/-- Helper: replacing a binding by a non-negative value keeps the ledger
non-negative. -/
theorem nonneg_setBal (bs : List (String × Int)) (k : String) (v : Int)
    (hpos : ∀ e ∈ bs, 0 ≤ e.2) (hv : 0 ≤ v) :
    ∀ e ∈ setBal bs k v, 0 ≤ e.2 := by
  unfold setBal
  by_cases hany : bs.any (fun e => decide (e.1 = k)) = true
  · rw [if_pos hany]
    intro e he
    obtain ⟨e0, he0, heq⟩ := List.mem_map.mp he
    by_cases h0 : e0.1 = k
    · rw [if_pos h0] at heq
      rw [← heq]
      exact hv
    · rw [if_neg h0] at heq
      rw [← heq]
      exact hpos e0 he0
  · rw [if_neg hany]
    intro e he
    rcases List.mem_append.mp he with h1 | h1
    · exact hpos e h1
    · rw [List.mem_singleton] at h1
      rw [h1]
      exact hv

/-- Helper: replacing a binding does not change the key sequence when the
key is present, and appends it otherwise; uniqueness is preserved. -/
theorem nodup_setBal (bs : List (String × Int)) (k : String) (v : Int)
    (hnd : (bs.map Prod.fst).Nodup) :
    ((setBal bs k v).map Prod.fst).Nodup := by
  unfold setBal
  by_cases hany : bs.any (fun e => decide (e.1 = k)) = true
  · rw [if_pos hany]
    have hkeys : (bs.map (fun e => if e.1 = k then (k, v) else e)).map Prod.fst
        = bs.map Prod.fst := by
      rw [List.map_map]
      apply List.map_congr_left
      intro e _
      by_cases h0 : e.1 = k
      · simp [h0]
      · simp [h0]
    rw [hkeys]
    exact hnd
  · rw [if_neg hany]
    rw [List.map_append, List.nodup_append]
    refine ⟨hnd, List.nodup_singleton _, ?_⟩
    intro a ha hb
    simp only [List.map_cons, List.map_nil, List.mem_singleton] at hb
    rw [hb] at ha
    obtain ⟨e, he, hek⟩ := List.mem_map.mp ha
    have hany2 : (bs.any fun e => decide (e.1 = k)) = false := Bool.eq_false_iff.mpr hany
    rw [List.any_eq_false] at hany2
    exact absurd hek (by simpa using hany2 e he)

/-- Helper: crediting changes the ledger sum by the credited amount. -/
theorem sumBal_credit (bs : List (String × Int)) (k : String) (a : Int)
    (hnd : (bs.map Prod.fst).Nodup) :
    sumBal (credit bs k a) = sumBal bs + a := by
  unfold credit
  rw [sumBal_setBal bs k _ hnd]
  ring

/-- Helper: crediting a non-negative amount keeps the ledger
non-negative. -/
theorem nonneg_credit (bs : List (String × Int)) (k : String) (a : Int)
    (hpos : ∀ e ∈ bs, 0 ≤ e.2) (ha : 0 ≤ a) :
    ∀ e ∈ credit bs k a, 0 ≤ e.2 := by
  unfold credit
  exact nonneg_setBal bs k _ hpos (by linarith [getBal_nonneg bs hpos k])

/-- Helper: crediting preserves key uniqueness. -/
theorem nodup_credit (bs : List (String × Int)) (k : String) (a : Int)
    (hnd : (bs.map Prod.fst).Nodup) :
    ((credit bs k a).map Prod.fst).Nodup :=
  nodup_setBal bs k _ hnd

/-- Helper: non-negativity of the transfer fee under the policy bounds. -/
theorem fee_nonneg (amount bps : Int) (ha : 0 ≤ amount) (hb : 0 ≤ bps) :
    0 ≤ amount * bps / 10000 :=
  Int.ediv_nonneg (mul_nonneg ha hb) (by norm_num)

/-- Helper: every transaction accepted by the state machine preserves the
balance invariants. -/
theorem applyTx_WF (author : String) (st st2 : GroupState) (tx : Tx)
    (hwf : stateWF st) (h : applyTx author st tx = .ok st2) : stateWF st2 := by
  obtain ⟨⟨hsum, hpos, hcap⟩, hnd, hfau, hrew, hfee, hoff⟩ := hwf
  cases tx with
  | memberAdd pub role =>
    simp only [applyTx] at h
    split at h
    · simp at h
    · split at h
      · simp only [Except.ok.injEq] at h
        subst h
        exact ⟨⟨hsum, hpos, hcap⟩, hnd, hfau, hrew, hfee, hoff⟩
      · split at h
        · rename_i hcond
          simp only [Except.ok.injEq] at h
          subst h
          refine ⟨⟨?_, ?_, ?_⟩, ?_, hfau, hrew, hfee, hoff⟩
          · show sumBal (credit st.balances pub st.policy.faucetAmount)
              = st.totalSupply + st.policy.faucetAmount
            rw [sumBal_credit _ _ _ hnd, hsum]
          · exact nonneg_credit _ _ _ hpos (le_of_lt hcond.1)
          · exact hcond.2.1
          · exact nodup_credit _ _ _ hnd
        · simp only [Except.ok.injEq] at h
          subst h
          exact ⟨⟨hsum, hpos, hcap⟩, hnd, hfau, hrew, hfee, hoff⟩
  | memberRemove pub =>
    simp only [applyTx] at h
    split at h
    · simp at h
    · simp only [Except.ok.injEq] at h
      subst h
      exact ⟨⟨hsum, hpos, hcap⟩, hnd, hfau, hrew, hfee, hoff⟩
  | mint toPub amount =>
    simp only [applyTx] at h
    split at h
    · simp at h
    · split at h
      · simp at h
      · split at h
        · simp at h
        · split at h
          · simp at h
          · split at h
            · simp at h
            · rename_i hneg hbig hscap hacap
              simp only [Except.ok.injEq] at h
              subst h
              refine ⟨⟨?_, ?_, ?_⟩, nodup_credit _ _ _ hnd, hfau, hrew, hfee, hoff⟩
              · show sumBal (credit st.balances toPub amount) = st.totalSupply + amount
                rw [sumBal_credit _ _ _ hnd, hsum]
              · exact nonneg_credit _ _ _ hpos (by omega)
              · simpa using hscap
  | transfer fromPub toPub amount =>
    simp only [applyTx] at h
    split at h
    · simp at h
    · split at h
      · simp at h
      · split at h
        · simp at h
        · split at h
          · simp at h
          · split at h
            · simp at h
            · split at h
              · simp at h
              · rename_i hauth hself hneg hbig hbal hacap
                simp only [Except.ok.injEq] at h
                subst h
                have hamt : 0 < amount := by omega
                have hfeeamt : 0 ≤ amount * st.policy.transferFeeBps / 10000 :=
                  fee_nonneg _ _ (le_of_lt hamt) hfee
                have hbal2 : amount + amount * st.policy.transferFeeBps / 10000
                    ≤ getBal st.balances fromPub := by omega
                have hnd1 := nodup_setBal st.balances fromPub
                  (getBal st.balances fromPub
                    - (amount + amount * st.policy.transferFeeBps / 10000)) hnd
                have hpos1 := nonneg_setBal st.balances fromPub
                  (getBal st.balances fromPub
                    - (amount + amount * st.policy.transferFeeBps / 10000)) hpos
                  (by omega)
                have hnd2 := nodup_credit _ toPub amount hnd1
                have hpos2 := nonneg_credit _ toPub amount hpos1 (le_of_lt hamt)
                refine ⟨⟨?_, ?_, hcap⟩, ?_, hfau, hrew, hfee, hoff⟩
                · show sumBal (credit (credit (setBal st.balances fromPub _) toPub amount)
                      TREASURY (amount * st.policy.transferFeeBps / 10000)) = st.totalSupply
                  rw [sumBal_credit _ _ _ hnd2, sumBal_credit _ _ _ hnd1,
                    sumBal_setBal _ _ _ hnd, hsum]
                  ring
                · exact nonneg_credit _ TREASURY _ hpos2 hfeeamt
                · exact nodup_credit _ TREASURY _ hnd2
  | policyUpdate u =>
    simp only [applyTx] at h
    split at h
    · simp at h
    · split at h
      · simp at h
      · split at h
        · simp at h
        · split at h
          · simp at h
          · split at h
            · simp at h
            · split at h
              · simp at h
              · split at h
                · simp at h
                · rename_i hfau2 hrew2 hfee2 hsup2 hacc2
                  simp only [Except.ok.injEq] at h
                  subst h
                  refine ⟨⟨hsum, hpos, ?_⟩, hnd, ?_, ?_, ?_, hoff⟩
                  · show underCap (u.maxTotalSupply.orElse
                      (fun _ => st.policy.maxTotalSupply)) st.totalSupply = true
                    cases hm : u.maxTotalSupply with
                    | none => simpa [Option.orElse] using hcap
                    | some m =>
                      rw [hm] at hsup2
                      simp only [Option.any_some, decide_eq_true_iff] at hsup2
                      simp only [Option.orElse, underCap]
                      simp only [decide_eq_true_iff]
                      omega
                  · show 0 ≤ u.faucetAmount.getD st.policy.faucetAmount
                    cases hm : u.faucetAmount with
                    | none => simpa using hfau
                    | some f =>
                      rw [hm] at hfau2
                      simp only [Option.any_some, decide_eq_true_iff] at hfau2
                      simp only [Option.getD_some]
                      omega
                  · show 0 ≤ u.claimRewardAmount.getD st.policy.claimRewardAmount
                    cases hm : u.claimRewardAmount with
                    | none => simpa using hrew
                    | some r =>
                      rw [hm] at hrew2
                      simp only [Option.any_some, decide_eq_true_iff] at hrew2
                      simp only [Option.getD_some]
                      omega
                  · show 0 ≤ u.transferFeeBps.getD st.policy.transferFeeBps
                    cases hm : u.transferFeeBps with
                    | none => simpa using hfee
                    | some b =>
                      rw [hm] at hfee2
                      simp only [Option.any_some, decide_eq_true_iff] at hfee2
                      simp only [Option.getD_some]
                      omega
  | claim artifactHash =>
    simp only [applyTx] at h
    split at h
    · simp at h
    · split at h
      · rename_i hcond
        simp only [Except.ok.injEq] at h
        subst h
        refine ⟨⟨?_, ?_, ?_⟩, nodup_credit _ _ _ hnd, hfau, hrew, hfee, hoff⟩
        · show sumBal (credit st.balances author st.policy.claimRewardAmount)
            = st.totalSupply + st.policy.claimRewardAmount
          rw [sumBal_credit _ _ _ hnd, hsum]
        · exact nonneg_credit _ _ _ hpos (le_of_lt hcond.1)
        · exact hcond.2.1
      · simp only [Except.ok.injEq] at h
        subst h
        exact ⟨⟨hsum, hpos, hcap⟩, hnd, hfau, hrew, hfee, hoff⟩
  | retract artifactHash =>
    simp only [applyTx] at h
    split at h
    · simp at h
    · split at h
      · simp only [Except.ok.injEq] at h
        subst h
        exact ⟨⟨hsum, hpos, hcap⟩, hnd, hfau, hrew, hfee, hoff⟩
      · simp at h
  | offerCreate offerId price =>
    simp only [applyTx] at h
    split at h
    · simp at h
    · split at h
      · simp at h
      · split at h
        · simp at h
        · rename_i hmem hdup hprice
          simp only [Except.ok.injEq] at h
          subst h
          refine ⟨⟨hsum, hpos, hcap⟩, hnd, hfau, hrew, hfee, ?_⟩
          intro o ho
          rcases List.mem_append.mp ho with h1 | h1
          · exact hoff o h1
          · rw [List.mem_singleton] at h1
            rw [h1]
            show 0 ≤ price
            omega
  | offerClose offerId =>
    simp only [applyTx] at h
    split at h
    · simp at h
    · split at h
      · simp only [Except.ok.injEq] at h
        subst h
        refine ⟨⟨hsum, hpos, hcap⟩, hnd, hfau, hrew, hfee, ?_⟩
        intro o ho
        obtain ⟨o0, ho0, heq⟩ := List.mem_map.mp ho
        by_cases h0 : o0.1 = offerId
        · rw [if_pos h0] at heq
          rw [← heq]
          exact hoff o0 ho0
        · rw [if_neg h0] at heq
          rw [← heq]
          exact hoff o0 ho0
      · simp at h
  | offerPurchase offerId buyer =>
    simp only [applyTx] at h
    split at h
    · simp at h
    · split at h
      · simp at h
      · rename_i hmem o ho
        split at h
        · simp at h
        · split at h
          · simp at h
          · split at h
            · simp at h
            · split at h
              · simp at h
              · rename_i hact hown hbal hacap
                simp only [Except.ok.injEq] at h
                subst h
                have hop : 0 ≤ o.price := by
                  have := lookup_eq_some_mem ho
                  exact hoff _ this
                have hfeeamt : 0 ≤ o.price * st.policy.transferFeeBps / 10000 :=
                  fee_nonneg _ _ hop hfee
                have hnd1 := nodup_setBal st.balances buyer
                  (getBal st.balances buyer
                    - (o.price + o.price * st.policy.transferFeeBps / 10000)) hnd
                have hpos1 := nonneg_setBal st.balances buyer
                  (getBal st.balances buyer
                    - (o.price + o.price * st.policy.transferFeeBps / 10000)) hpos
                  (by omega)
                have hnd2 := nodup_credit _ o.seller o.price hnd1
                have hpos2 := nonneg_credit _ o.seller o.price hpos1 hop
                refine ⟨⟨?_, ?_, hcap⟩, ?_, hfau, hrew, hfee, hoff⟩
                · show sumBal (credit (credit (setBal st.balances buyer _) o.seller o.price)
                      TREASURY (o.price * st.policy.transferFeeBps / 10000)) = st.totalSupply
                  rw [sumBal_credit _ _ _ hnd2, sumBal_credit _ _ _ hnd1,
                    sumBal_setBal _ _ _ hnd, hsum]
                  ring
                · exact nonneg_credit _ TREASURY _ hpos2 hfeeamt
                · exact nodup_credit _ TREASURY _ hnd2

/-- Helper: a property preserved by every accepted step is preserved by a
monadic fold over the step function. -/
theorem foldlM_preserves {α σ : Type} (f : σ → α → Except String σ) (P : σ → Prop)
    (hf : ∀ s a s2, P s → f s a = .ok s2 → P s2) :
    ∀ (l : List α) (s s2 : σ), P s → l.foldlM f s = .ok s2 → P s2 := by
  intro l
  induction l with
  | nil =>
    intro s s2 hp h
    simp only [List.foldlM_nil] at h
    rw [show (pure s : Except String σ) = Except.ok s from rfl] at h
    simp only [Except.ok.injEq] at h
    rw [← h]
    exact hp
  | cons a t ih =>
    intro s s2 hp h
    rw [List.foldlM_cons] at h
    cases hf2 : f s a with
    | error e =>
      rw [hf2] at h
      rw [show ((Except.error e : Except String σ) >>= fun s => t.foldlM f s)
          = Except.error e from rfl] at h
      simp at h
    | ok sm =>
      rw [hf2] at h
      rw [show ((Except.ok sm : Except String σ) >>= fun s => t.foldlM f s)
          = t.foldlM f sm from rfl] at h
      exact ih sm s2 (hf s a sm hp hf2) h

/-- Helper: a block accepted by `applyBlock` preserves the invariants. -/
theorem applyBlock_WF (st st2 : GroupState) (b : BlockM)
    (hwf : stateWF st) (h : applyBlock st b = .ok st2) : stateWF st2 := by
  unfold applyBlock at h
  split at h
  · exact foldlM_preserves (applyTx b.author) stateWF
      (fun s a s2 => applyTx_WF b.author s s2 a) b.txs st st2 hwf h
  · simp at h

/-- Helper: the genesis state satisfies the invariants. -/
theorem genesisState_WF (creator : String) : stateWF (genesisState creator) := by
  refine ⟨⟨rfl, ?_, rfl⟩, List.nodup_nil, le_refl 0, le_refl 0, le_refl 0, ?_⟩
  · intro e he
    simp [genesisState] at he
  · intro o ho
    simp [genesisState] at ho

/-- C3 (amended): every state reachable from genesis through accepted
blocks conserves balances (their sum equals `total_supply`), keeps every
balance non-negative, and respects the `max_total_supply` cap.  The
`max_account_balance` clause of the original claim is refuted by
`chain_account_cap_violated`. -/
theorem chain_balance_invariants (creator : String) (blocks : List BlockM)
    (st : GroupState) (h : runChain creator blocks = .ok st) :
    sumBal st.balances = st.totalSupply
    ∧ (∀ e ∈ st.balances, 0 ≤ e.2)
    ∧ underCap st.policy.maxTotalSupply st.totalSupply = true := by
  have hwf : stateWF st :=
    foldlM_preserves applyBlock stateWF
      (fun s b s2 => applyBlock_WF s s2 b) blocks (genesisState creator) st
      (genesisState_WF creator) h
  exact hwf.1

/-- Witness for C3 (amended): a two-block run with a mint and a transfer. -/
theorem chain_balance_invariants_witness :
    (sumBal ((GroupState.mk ["A", "B"] ["A"]
        [("A", 880), ("B", 100), ("TREASURY", 20)] 1000
        ⟨0, 0, 2000, none, none⟩ [] [] [] []).balances) = 1000)
    ∧ (∀ e ∈ (GroupState.mk ["A", "B"] ["A"]
        [("A", 880), ("B", 100), ("TREASURY", 20)] 1000
        ⟨0, 0, 2000, none, none⟩ [] [] [] []).balances, 0 ≤ e.2)
    ∧ underCap (GroupState.mk ["A", "B"] ["A"]
        [("A", 880), ("B", 100), ("TREASURY", 20)] 1000
        ⟨0, 0, 2000, none, none⟩ [] [] [] []).policy.maxTotalSupply
        (GroupState.mk ["A", "B"] ["A"]
        [("A", 880), ("B", 100), ("TREASURY", 20)] 1000
        ⟨0, 0, 2000, none, none⟩ [] [] [] []).totalSupply = true := by
  have h := chain_balance_invariants "A"
    [⟨"A", [.mint "A" 1000, .memberAdd "B" "member",
      .policyUpdate { transferFeeBps := some 2000 }]⟩,
     ⟨"A", [.transfer "A" "B" 100]⟩]
    (GroupState.mk ["A", "B"] ["A"]
      [("A", 880), ("B", 100), ("TREASURY", 20)] 1000
      ⟨0, 0, 2000, none, none⟩ [] [] [] []) (by rfl)
  exact h

/-- Counterexample for C3 as stated: a `policy_update` may set
`max_account_balance` below an existing balance, so the account-cap clause
of invariant I4 is not preserved by `append`; here the run succeeds and
leaves account `A` at 1000 against a cap of 50. -/
theorem chain_account_cap_violated :
    (runChain "A" [⟨"A", [.mint "A" 1000]⟩,
      ⟨"A", [.policyUpdate { maxAccountBalance := some 50 }]⟩]).map
      accountCapRespected = .ok false := by rfl

/-! ### Write-ahead log -/

/-- C10: once a transaction is finalised by `commit` or `rollback`,
`write_json` and `commit` raise `WALError`, while `rollback` returns
silently leaving the transaction and the disk untouched. -/
theorem wal_tx_finalized_behavior {P V : Type} [DecidableEq P] (tx : WalTx P)
    (d : WalDisk P V) (p : P) (v : V)
    (hfin : tx.committed = true ∨ tx.rolledBack = true) :
    txWriteJson tx d p v = .error ()
    ∧ txCommit tx d = .error ()
    ∧ txRollback tx d = (tx, d) := by
  have hb : (tx.committed || tx.rolledBack) = true := by
    rcases hfin with h | h <;> simp [h]
  unfold txWriteJson txCommit txRollback
  rw [if_pos hb, if_pos hb, if_pos hb]
  exact ⟨rfl, rfl, rfl⟩

/-- Witness for C10 at a concrete committed transaction. -/
theorem wal_tx_finalized_behavior_witness :
    txWriteJson ⟨[], 0, true, false⟩ (walInit (fun _ : Nat => (none : Option Nat))) 0 1
      = .error ()
    ∧ txCommit ⟨[], 0, true, false⟩ (walInit (fun _ : Nat => (none : Option Nat)))
      = .error ()
    ∧ txRollback ⟨[], 0, true, false⟩ (walInit (fun _ : Nat => (none : Option Nat)))
      = (⟨[], 0, true, false⟩, walInit (fun _ : Nat => (none : Option Nat))) :=
  wal_tx_finalized_behavior ⟨[], 0, true, false⟩
    (walInit (fun _ : Nat => (none : Option Nat))) 0 1 (Or.inl rfl)

/-- Equation lemmas for `walExec`, one per step kind. -/
theorem walExec_mkBackup {P V : Type} [DecidableEq P] (d : WalDisk P V) (i : Nat) (p : P) :
    walExec d (.mkBackup i p)
      = match d.tgt p with
        | some v => { d with bak := updMap d.bak i (some v) }
        | none => d := rfl

/-- Equation lemma for the staging write. -/
theorem walExec_mkStaged {P V : Type} [DecidableEq P] (d : WalDisk P V) (i : Nat) (v : V) :
    walExec d (.mkStaged i v) = { d with stg := updMap d.stg i (some v) } := rfl

/-- Equation lemma for the log-entry append. -/
theorem walExec_logEntry {P V : Type} [DecidableEq P] (d : WalDisk P V) (i : Nat) (p : P) :
    walExec d (.logEntry i p)
      = { d with logE := d.logE ++ [(i, p, (d.bak i).isSome)] } := rfl

/-- Equation lemma for the commit marker. -/
theorem walExec_logCommit {P V : Type} [DecidableEq P] (d : WalDisk P V) :
    walExec d (.logCommit) = { d with logC := true } := rfl

/-- Equation lemma for the staged-to-target copy. -/
theorem walExec_applyStaged {P V : Type} [DecidableEq P] (d : WalDisk P V) (i : Nat) (p : P) :
    walExec d (.applyStaged i p)
      = match d.stg i with
        | some v => { d with tgt := updMap d.tgt p (some v) }
        | none => d := rfl

/-- Equation lemma for backup deletion. -/
theorem walExec_delBackup {P V : Type} [DecidableEq P] (d : WalDisk P V) (i : Nat) :
    walExec d (.delBackup i) = { d with bak := updMap d.bak i none } := rfl

/-- Equation lemma for staged-file deletion. -/
theorem walExec_delStaged {P V : Type} [DecidableEq P] (d : WalDisk P V) (i : Nat) :
    walExec d (.delStaged i) = { d with stg := updMap d.stg i none } := rfl

/-- Equation lemma for log-entry removal. -/
theorem walExec_clearLog {P V : Type} [DecidableEq P] (d : WalDisk P V) :
    walExec d (.clearLog) = { d with logE := [], logC := false } := rfl

/-- Helper: apply steps change only the targets. -/
theorem run_apply_pres {P V : Type} [DecidableEq P] :
    ∀ (l : List (WalStep P V)) (d : WalDisk P V), (∀ s ∈ l, IsApply s) →
      (walRun d l).stg = d.stg ∧ (walRun d l).bak = d.bak
      ∧ (walRun d l).logE = d.logE ∧ (walRun d l).logC = d.logC := by
  intro l
  induction l with
  | nil => intro d _; exact ⟨rfl, rfl, rfl, rfl⟩
  | cons s t ih =>
    intro d hall
    obtain ⟨i, p, hs⟩ := hall s (List.mem_cons_self s t)
    subst hs
    have h1 : walRun d (WalStep.applyStaged i p :: t)
        = walRun (walExec d (.applyStaged i p)) t := rfl
    rw [h1]
    have he : (walExec d (.applyStaged i p)).stg = d.stg
        ∧ (walExec d (.applyStaged i p)).bak = d.bak
        ∧ (walExec d (.applyStaged i p)).logE = d.logE
        ∧ (walExec d (.applyStaged i p)).logC = d.logC := by
      rw [walExec_applyStaged]
      cases hsi : d.stg i <;> exact ⟨rfl, rfl, rfl, rfl⟩
    obtain ⟨ihs, ihb, ihe, ihc⟩ := ih (walExec d (.applyStaged i p))
      (fun s hs => hall s (List.mem_cons_of_mem _ hs))
    exact ⟨ihs.trans he.1, ihb.trans he.2.1, ihe.trans he.2.2.1, ihc.trans he.2.2.2⟩

/-- Helper: cleanup steps leave targets and the log alone, and only
delete staged files. -/
theorem run_clean_pres {P V : Type} [DecidableEq P] :
    ∀ (l : List (WalStep P V)) (d : WalDisk P V), (∀ s ∈ l, IsClean s) →
      (walRun d l).tgt = d.tgt ∧ (walRun d l).logE = d.logE
      ∧ (walRun d l).logC = d.logC
      ∧ ∀ i, (walRun d l).stg i = d.stg i ∨ (walRun d l).stg i = none := by
  intro l
  induction l with
  | nil => intro d _; exact ⟨rfl, rfl, rfl, fun i => Or.inl rfl⟩
  | cons s t ih =>
    intro d hall
    have h1 : walRun d (s :: t) = walRun (walExec d s) t := rfl
    rw [h1]
    obtain ⟨iht, ihe, ihc, ihs⟩ := ih (walExec d s)
      (fun s2 hs => hall s2 (List.mem_cons_of_mem _ hs))
    have he : (walExec d s).tgt = d.tgt ∧ (walExec d s).logE = d.logE
        ∧ (walExec d s).logC = d.logC
        ∧ ∀ i, (walExec d s).stg i = d.stg i ∨ (walExec d s).stg i = none := by
      rcases hall s (List.mem_cons_self s t) with ⟨i, hs⟩ | ⟨i, hs⟩ <;> subst hs
      · exact ⟨rfl, rfl, rfl, fun _ => Or.inl rfl⟩
      · refine ⟨rfl, rfl, rfl, ?_⟩
        intro j
        show updMap d.stg i none j = d.stg j ∨ updMap d.stg i none j = none
        unfold updMap
        by_cases hj : j = i
        · rw [if_pos hj]
          right
          rfl
        · rw [if_neg hj]
          left
          rfl
    refine ⟨iht.trans he.1, ihe.trans he.2.1, ihc.trans he.2.2.1, ?_⟩
    intro i
    rcases ihs i with h2 | h2
    · rw [h2]
      exact he.2.2.2 i
    · right
      exact h2

/-- Helper: the generated apply steps are apply steps. -/
theorem applySteps_all_apply {P V : Type} :
    ∀ (ws : List (P × V)) (i0 : Nat) (s : WalStep P V),
      s ∈ applySteps i0 ws → IsApply s := by
  intro ws
  induction ws with
  | nil => intro i0 s hs; simp [applySteps] at hs
  | cons a t ih =>
    intro i0 s hs
    rw [show applySteps i0 (a :: t)
        = .applyStaged i0 a.1 :: applySteps (i0 + 1) t from rfl] at hs
    rcases List.mem_cons.mp hs with h | h
    · exact ⟨i0, a.1, h⟩
    · exact ih (i0 + 1) s h

/-- Helper: the generated cleanup steps are cleanup steps. -/
theorem cleanSteps_all_clean {P V : Type} :
    ∀ (ws : List (P × V)) (i0 : Nat) (s : WalStep P V),
      s ∈ cleanSteps i0 ws → IsClean s := by
  intro ws
  induction ws with
  | nil => intro i0 s hs; simp [cleanSteps] at hs
  | cons a t ih =>
    intro i0 s hs
    rw [show cleanSteps i0 (a :: t)
        = .delBackup i0 :: .delStaged i0 :: cleanSteps (i0 + 1) t from rfl] at hs
    rcases List.mem_cons.mp hs with h | h
    · exact Or.inl ⟨i0, h⟩
    · rcases List.mem_cons.mp h with h2 | h2
      · exact Or.inr ⟨i0, h2⟩
      · exact ih (i0 + 1) s h2

/-- Helper: lengths of the generated step lists. -/
theorem stageSteps_length {P V : Type} :
    ∀ (ws : List (P × V)) (i0 : Nat), (stageSteps (P := P) (V := V) i0 ws).length
      = 3 * ws.length := by
  intro ws
  induction ws with
  | nil => intro i0; rfl
  | cons a t ih =>
    intro i0
    rw [show stageSteps i0 (a :: t)
        = .mkBackup i0 a.1 :: .mkStaged i0 a.2 :: .logEntry i0 a.1
          :: stageSteps (i0 + 1) t from by
        rw [show (a :: t) = ((a.1, a.2) :: t) from by rw [Prod.mk.eta]]
        rfl]
    simp only [List.length_cons, ih]
    ring

/-- Helper: length of the apply step list. -/
theorem applySteps_length {P V : Type} :
    ∀ (ws : List (P × V)) (i0 : Nat), (applySteps (P := P) (V := V) i0 ws).length
      = ws.length := by
  intro ws
  induction ws with
  | nil => intro i0; rfl
  | cons a t ih =>
    intro i0
    rw [show applySteps i0 (a :: t)
        = .applyStaged i0 a.1 :: applySteps (i0 + 1) t from rfl]
    simp only [List.length_cons, ih]

/-- Helper: length of the cleanup step list. -/
theorem cleanSteps_length {P V : Type} :
    ∀ (ws : List (P × V)) (i0 : Nat), (cleanSteps (P := P) (V := V) i0 ws).length
      = 2 * ws.length := by
  intro ws
  induction ws with
  | nil => intro i0; rfl
  | cons a t ih =>
    intro i0
    rw [show cleanSteps i0 (a :: t)
        = .delBackup i0 :: .delStaged i0 :: cleanSteps (i0 + 1) t from rfl]
    simp only [List.length_cons, ih]
    ring

/-- Helper: unfolding of `stageSteps` on a cons cell. -/
theorem stageSteps_cons {P V : Type} (i0 : Nat) (a : P × V) (t : List (P × V)) :
    stageSteps i0 (a :: t)
      = .mkBackup i0 a.1 :: .mkStaged i0 a.2 :: .logEntry i0 a.1
        :: stageSteps (i0 + 1) t := by
  obtain ⟨p, v⟩ := a
  rfl

/-- Helper: unfolding of `applySteps` on a cons cell. -/
theorem applySteps_cons {P V : Type} (i0 : Nat) (a : P × V) (t : List (P × V)) :
    applySteps i0 (a :: t) = .applyStaged i0 a.1 :: applySteps (i0 + 1) t := by
  obtain ⟨p, v⟩ := a
  rfl

/-- Helper: unfolding of `cleanSteps` on a cons cell. -/
theorem cleanSteps_cons {P V : Type} (i0 : Nat) (a : P × V) (t : List (P × V)) :
    cleanSteps i0 (a :: t)
      = .delBackup i0 :: .delStaged i0 :: cleanSteps (i0 + 1) t := by
  obtain ⟨p, v⟩ := a
  rfl

/-- Helper: unfolding of `fullEntries` on a cons cell. -/
theorem fullEntries_cons {P V : Type} (t0 : P → Option V) (i0 : Nat) (a : P × V)
    (t : List (P × V)) :
    fullEntries t0 i0 (a :: t)
      = (i0, a.1, (t0 a.1).isSome) :: fullEntries t0 (i0 + 1) t := by
  obtain ⟨p, v⟩ := a
  rfl

/-- Helper: the three staging I/Os of one `write_json` preserve the
staging invariant with the next sequence number, record exactly one entry,
and stage the new payload. -/
theorem stage_three {P V : Type} [DecidableEq P] (t0 : P → Option V) (i0 : Nat)
    (d : WalDisk P V) (p : P) (v : V) (hg : StageGood t0 i0 d) :
    StageGood t0 (i0 + 1) (walRun d [.mkBackup i0 p, .mkStaged i0 v, .logEntry i0 p])
    ∧ (walRun d [.mkBackup i0 p, .mkStaged i0 v, .logEntry i0 p]).logE
      = d.logE ++ [(i0, p, (t0 p).isSome)]
    ∧ (walRun d [.mkBackup i0 p, .mkStaged i0 v, .logEntry i0 p]).stg
      = updMap d.stg i0 (some v) := by
  obtain ⟨hgc, hgt, hga, hgi, hgf⟩ := hg
  have htp : d.tgt p = t0 p := by rw [hgt]
  have h1tgt : (walExec d (.mkBackup i0 p)).tgt = d.tgt := by
    rw [walExec_mkBackup]; cases d.tgt p <;> rfl
  have h1stg : (walExec d (.mkBackup i0 p)).stg = d.stg := by
    rw [walExec_mkBackup]; cases d.tgt p <;> rfl
  have h1logE : (walExec d (.mkBackup i0 p)).logE = d.logE := by
    rw [walExec_mkBackup]; cases d.tgt p <;> rfl
  have h1logC : (walExec d (.mkBackup i0 p)).logC = d.logC := by
    rw [walExec_mkBackup]; cases d.tgt p <;> rfl
  have h1baki : (walExec d (.mkBackup i0 p)).bak i0 = t0 p := by
    rw [walExec_mkBackup, htp]
    cases hc : t0 p with
    | none => exact hgf i0 (le_refl i0)
    | some w =>
      show updMap d.bak i0 (some w) i0 = some w
      unfold updMap
      rw [if_pos rfl]
  have h1bakj : ∀ j, j ≠ i0 → (walExec d (.mkBackup i0 p)).bak j = d.bak j := by
    intro j hj
    rw [walExec_mkBackup]
    cases d.tgt p with
    | none => rfl
    | some w =>
      show updMap d.bak i0 (some w) j = d.bak j
      unfold updMap
      rw [if_neg hj]
  have hrun : walRun d [.mkBackup i0 p, .mkStaged i0 v, .logEntry i0 p]
      = walExec (walExec (walExec d (.mkBackup i0 p)) (.mkStaged i0 v)) (.logEntry i0 p) :=
    rfl
  rw [hrun, walExec_logEntry, walExec_mkStaged]
  dsimp only
  refine ⟨⟨?_, ?_, ?_, ?_, ?_⟩, ?_, ?_⟩
  · rw [h1logC]; exact hgc
  · rw [h1tgt]; exact hgt
  · intro e he hb
    dsimp only at he ⊢
    rw [h1logE] at he
    rcases List.mem_append.mp he with h3 | h3
    · have hlt := hgi e h3
      rw [h1bakj e.1 (by omega)]
      exact hga e h3 hb
    · rw [List.mem_singleton] at h3
      rw [h3]
      dsimp only
      rw [h1baki]
  · intro e he
    dsimp only at he
    rw [h1logE] at he
    rcases List.mem_append.mp he with h3 | h3
    · have := hgi e h3
      omega
    · rw [List.mem_singleton] at h3
      rw [h3]
      omega
  · intro j hj
    dsimp only
    rw [h1bakj j (by omega)]
    exact hgf j (by omega)
  · dsimp only
    rw [h1logE, h1baki]
  · dsimp only
    rw [h1stg]

/-- Helper: after any prefix of the staging I/O, no commit marker exists,
targets are untouched, and every recorded backup still holds the
pre-transaction contents. -/
theorem stage_prefix_weak {P V : Type} [DecidableEq P] (t0 : P → Option V) :
    ∀ (ws : List (P × V)) (i0 : Nat) (d : WalDisk P V), StageGood t0 i0 d →
    ∀ k, (walRun d ((stageSteps i0 ws).take k)).logC = false
      ∧ (walRun d ((stageSteps i0 ws).take k)).tgt = t0
      ∧ (∀ e ∈ (walRun d ((stageSteps i0 ws).take k)).logE,
          e.2.2 = true → (walRun d ((stageSteps i0 ws).take k)).bak e.1 = t0 e.2.1) := by
  intro ws
  induction ws with
  | nil =>
    intro i0 d hg k
    rw [show stageSteps (P := P) (V := V) i0 [] = [] from rfl, List.take_nil]
    exact ⟨hg.1, hg.2.1, hg.2.2.1⟩
  | cons a t ih =>
    intro i0 d hg k
    obtain ⟨hgc, hgt, hga, hgi, hgf⟩ := hg
    have htp : d.tgt a.1 = t0 a.1 := by rw [hgt]
    have h1tgt : (walExec d (.mkBackup i0 a.1)).tgt = d.tgt := by
      rw [walExec_mkBackup]; cases d.tgt a.1 <;> rfl
    have h1logE : (walExec d (.mkBackup i0 a.1)).logE = d.logE := by
      rw [walExec_mkBackup]; cases d.tgt a.1 <;> rfl
    have h1logC : (walExec d (.mkBackup i0 a.1)).logC = d.logC := by
      rw [walExec_mkBackup]; cases d.tgt a.1 <;> rfl
    have h1bakj : ∀ j, j ≠ i0 → (walExec d (.mkBackup i0 a.1)).bak j = d.bak j := by
      intro j hj
      rw [walExec_mkBackup]
      cases d.tgt a.1 with
      | none => rfl
      | some w =>
        show updMap d.bak i0 (some w) j = d.bak j
        unfold updMap
        rw [if_neg hj]
    rw [stageSteps_cons]
    match k with
    | 0 =>
      rw [List.take_zero]
      exact ⟨hgc, hgt, hga⟩
    | 1 =>
      rw [show (WalStep.mkBackup i0 a.1 :: .mkStaged i0 a.2 :: .logEntry i0 a.1
          :: stageSteps (i0 + 1) t).take 1 = [.mkBackup i0 a.1] from rfl]
      rw [show walRun d [WalStep.mkBackup i0 a.1] = walExec d (.mkBackup i0 a.1) from rfl]
      refine ⟨by rw [h1logC]; exact hgc, by rw [h1tgt]; exact hgt, ?_⟩
      intro e he hb
      rw [h1logE] at he
      rw [h1bakj e.1 (by have := hgi e he; omega)]
      exact hga e he hb
    | 2 =>
      rw [show (WalStep.mkBackup i0 a.1 :: .mkStaged i0 a.2 :: .logEntry i0 a.1
          :: stageSteps (i0 + 1) t).take 2 = [.mkBackup i0 a.1, .mkStaged i0 a.2] from rfl]
      rw [show walRun d [WalStep.mkBackup i0 a.1, .mkStaged i0 a.2]
          = walExec (walExec d (.mkBackup i0 a.1)) (.mkStaged i0 a.2) from rfl]
      rw [walExec_mkStaged]
      refine ⟨by dsimp only; rw [h1logC]; exact hgc,
        by dsimp only; rw [h1tgt]; exact hgt, ?_⟩
      intro e he hb
      dsimp only at he ⊢
      rw [h1logE] at he
      rw [h1bakj e.1 (by have := hgi e he; omega)]
      exact hga e he hb
    | (m + 3) =>
      rw [show (WalStep.mkBackup i0 a.1 :: .mkStaged i0 a.2 :: .logEntry i0 a.1
          :: stageSteps (i0 + 1) t).take (m + 3)
          = .mkBackup i0 a.1 :: .mkStaged i0 a.2 :: .logEntry i0 a.1
            :: (stageSteps (i0 + 1) t).take m from rfl]
      obtain ⟨hg3, _, _⟩ := stage_three t0 i0 d a.1 a.2 ⟨hgc, hgt, hga, hgi, hgf⟩
      have hrun : walRun d (WalStep.mkBackup i0 a.1 :: .mkStaged i0 a.2
          :: .logEntry i0 a.1 :: (stageSteps (i0 + 1) t).take m)
          = walRun (walRun d [.mkBackup i0 a.1, .mkStaged i0 a.2, .logEntry i0 a.1])
            ((stageSteps (i0 + 1) t).take m) := rfl
      rw [hrun]
      exact ih (i0 + 1) _ hg3 m

/-- Helper: the full staging pass writes exactly the expected entries and
staged files, touching neither targets nor the commit marker. -/
theorem stage_full {P V : Type} [DecidableEq P] (t0 : P → Option V) :
    ∀ (ws : List (P × V)) (i0 : Nat) (d : WalDisk P V), StageGood t0 i0 d →
      (walRun d (stageSteps i0 ws)).tgt = t0
      ∧ (walRun d (stageSteps i0 ws)).logC = false
      ∧ (walRun d (stageSteps i0 ws)).logE = d.logE ++ fullEntries t0 i0 ws
      ∧ (∀ j, j < i0 → (walRun d (stageSteps i0 ws)).stg j = d.stg j)
      ∧ (∀ idx, (hlt : idx < ws.length) →
          (walRun d (stageSteps i0 ws)).stg (i0 + idx) = some (ws.get ⟨idx, hlt⟩).2) := by
  intro ws
  induction ws with
  | nil =>
    intro i0 d hg
    rw [show stageSteps (P := P) (V := V) i0 [] = [] from rfl]
    refine ⟨hg.2.1, hg.1, ?_, fun j _ => rfl, ?_⟩
    · rw [show fullEntries t0 i0 ([] : List (P × V)) = [] from rfl, List.append_nil]
      exact rfl
    · intro idx hlt
      simp at hlt
  | cons a t ih =>
    intro i0 d hg
    rw [stageSteps_cons]
    obtain ⟨hg3, hlog3, hstg3⟩ := stage_three t0 i0 d a.1 a.2 hg
    have hrun : walRun d (WalStep.mkBackup i0 a.1 :: .mkStaged i0 a.2
        :: .logEntry i0 a.1 :: stageSteps (i0 + 1) t)
        = walRun (walRun d [.mkBackup i0 a.1, .mkStaged i0 a.2, .logEntry i0 a.1])
          (stageSteps (i0 + 1) t) := rfl
    rw [hrun]
    obtain ⟨ht, hc, hlE, hpres, hidx⟩ := ih (i0 + 1) _ hg3
    refine ⟨ht, hc, ?_, ?_, ?_⟩
    · rw [hlE, hlog3, List.append_assoc, fullEntries_cons, List.singleton_append]
    · intro j hj
      rw [hpres j (by omega), hstg3]
      unfold updMap
      rw [if_neg (by omega)]
    · intro idx hlt
      match idx with
      | 0 =>
        rw [show i0 + 0 = i0 from rfl, hpres i0 (by omega), hstg3]
        show (if i0 = i0 then some a.2 else d.stg i0) = _
        rw [if_pos rfl]
        exact rfl
      | (m + 1) =>
        rw [show i0 + (m + 1) = (i0 + 1) + m from by omega]
        exact hidx m (by
          rw [List.length_cons] at hlt
          omega)

/-- Helper: restoring backups that hold the pre-transaction contents over
untouched targets changes nothing. -/
theorem rollback_fold_pre {P V : Type} [DecidableEq P] (t0 : P → Option V)
    (bak : Nat → Option V) :
    ∀ (L : List (Nat × P × Bool)), (∀ e ∈ L, e.2.2 = true → bak e.1 = t0 e.2.1) →
      L.foldl (walRollbackOne bak) t0 = t0 := by
  intro L
  induction L with
  | nil => intro _; rfl
  | cons e t ih =>
    intro hall
    rw [List.foldl_cons]
    have h1 : walRollbackOne bak t0 e = t0 := by
      unfold walRollbackOne
      by_cases hb : e.2.2 = true
      · rw [if_pos hb]
        have hbe := hall e (List.mem_cons_self e t) hb
        cases hc : bak e.1 with
        | none => rfl
        | some w =>
          rw [hc] at hbe
          funext q
          show (if q = e.2.1 then some w else t0 q) = t0 q
          by_cases hq : q = e.2.1
          · rw [if_pos hq, hq, ← hbe]
          · rw [if_neg hq]
      · rw [if_neg hb]
    rw [h1]
    exact ih (fun e2 he2 => hall e2 (List.mem_cons_of_mem _ he2))

/-- Helper: the initial disk satisfies the staging invariant. -/
theorem walInit_good {P V : Type} (t0 : P → Option V) :
    StageGood t0 0 (walInit t0) := by
  refine ⟨rfl, rfl, ?_, ?_, fun j _ => rfl⟩
  · intro e he
    exact absurd he (List.not_mem_nil e)
  · intro e he
    exact absurd he (List.not_mem_nil e)

/-- Helper: a crash during staging (before the commit marker is durable)
recovers to exactly the pre-transaction targets. -/
theorem wal_phase1_pre {P V : Type} [DecidableEq P] (t0 : P → Option V)
    (ws : List (P × V)) (k : Nat) (hk : k ≤ 3 * ws.length) :
    (walRecover (walRun (walInit t0) ((txSteps ws).take k))).tgt = t0 := by
  have htake : (txSteps ws).take k = (stageSteps 0 ws).take k := by
    unfold txSteps
    rw [List.append_assoc, List.append_assoc, List.append_assoc]
    exact List.take_append_of_le_length (by rw [stageSteps_length]; exact hk)
  rw [htake]
  obtain ⟨hc, ht, hargs⟩ := stage_prefix_weak t0 ws 0 (walInit t0) (walInit_good t0) k
  unfold walRecover
  rw [hc]
  simp only [Bool.false_eq_true, if_false]
  rw [ht]
  exact rollback_fold_pre t0 _ _
    (fun e he => hargs e (List.mem_reverse.mp he))

/-- Helper: running no steps leaves the disk unchanged. -/
theorem walRun_nil {P V : Type} [DecidableEq P] (d : WalDisk P V) :
    walRun d [] = d := rfl

/-- Helper: running a single step is one primitive I/O. -/
theorem walRun_single {P V : Type} [DecidableEq P] (d : WalDisk P V) (s : WalStep P V) :
    walRun d [s] = walExec d s := rfl

/-- Helper: unfolding the post-transaction contents on a cons cell. -/
theorem postTgt_cons {P V : Type} [DecidableEq P] (t0 : P → Option V) (a : P × V)
    (ws : List (P × V)) :
    postTgt t0 (a :: ws) = postTgt (updMap t0 a.1 (some a.2)) ws := by
  obtain ⟨p, v⟩ := a
  funext q
  rfl

/-- Helper: the post-transaction contents leave paths outside the write
set alone. -/
theorem postTgt_off {P V : Type} [DecidableEq P] :
    ∀ (ws : List (P × V)) (t0 : P → Option V) (q : P), q ∉ ws.map Prod.fst →
      postTgt t0 ws q = t0 q := by
  intro ws
  induction ws with
  | nil => intro t0 q _; rfl
  | cons a t ih =>
    intro t0 q hq
    rw [List.map_cons, List.mem_cons] at hq
    push_neg at hq
    rw [postTgt_cons, ih _ q hq.2]
    unfold updMap
    rw [if_neg hq.1]

/-- Helper: two start states agreeing outside the write set yield the same
post-transaction contents. -/
theorem postTgt_congr {P V : Type} [DecidableEq P] :
    ∀ (ws : List (P × V)) (t0 t1 : P → Option V),
      (∀ q, q ∉ ws.map Prod.fst → t1 q = t0 q) →
      postTgt t1 ws = postTgt t0 ws := by
  intro ws
  induction ws with
  | nil =>
    intro t0 t1 h
    funext q
    exact h q (by simp)
  | cons a t ih =>
    intro t0 t1 h
    rw [postTgt_cons, postTgt_cons]
    refine ih _ _ ?_
    intro q hq
    unfold updMap
    by_cases hqa : q = a.1
    · rw [if_pos hqa, if_pos hqa]
    · rw [if_neg hqa, if_neg hqa]
      refine h q ?_
      rw [List.map_cons, List.mem_cons]
      push_neg
      exact ⟨hqa, hq⟩

/-- Helper: with distinct target paths, the post-transaction contents at a
written path is the written value. -/
theorem postTgt_mem {P V : Type} [DecidableEq P] :
    ∀ (ws : List (P × V)) (t0 : P → Option V), (ws.map Prod.fst).Nodup →
      ∀ p v, (p, v) ∈ ws → postTgt t0 ws p = some v := by
  intro ws
  induction ws with
  | nil => intro t0 _ p v hm; exact absurd hm (List.not_mem_nil _)
  | cons a t ih =>
    intro t0 hnd p v hm
    obtain ⟨p0, v0⟩ := a
    rw [List.map_cons, List.nodup_cons] at hnd
    rw [postTgt_cons]
    rcases List.mem_cons.mp hm with h | h
    · rw [Prod.mk.injEq] at h
      obtain ⟨hp, hv⟩ := h
      subst hp
      subst hv
      rw [postTgt_off t _ _ hnd.1]
      show (if p = p then some v else t0 p) = some v
      rw [if_pos rfl]
    · exact ih _ hnd.2 p v h

/-- Helper: every record written by the staging pass carries the sequence
number and target path of one of the writes. -/
theorem fullEntries_mem {P V : Type} :
    ∀ (ws : List (P × V)) (t0 : P → Option V) (i0 : Nat) (e : Nat × P × Bool),
      e ∈ fullEntries t0 i0 ws →
      ∃ idx, ∃ h : idx < ws.length,
        e.1 = i0 + idx ∧ e.2.1 = (ws.get ⟨idx, h⟩).1 := by
  intro ws
  induction ws with
  | nil => intro t0 i0 e he; exact absurd he (List.not_mem_nil _)
  | cons a t ih =>
    intro t0 i0 e he
    rw [fullEntries_cons] at he
    rcases List.mem_cons.mp he with h | h
    · subst h
      exact ⟨0, by simp, by omega, rfl⟩
    · obtain ⟨idx, hlt, h1, h2⟩ := ih t0 (i0 + 1) e h
      exact ⟨idx + 1, Nat.succ_lt_succ hlt, by omega, h2⟩

/-- Helper: replaying the full entry list with every staged file present
rewrites every target to its staged contents, in order. -/
theorem replay_full {P V : Type} [DecidableEq P] :
    ∀ (ws : List (P × V)) (t0 tc : P → Option V) (i0 : Nat) (stg : Nat → Option V),
      (∀ idx, (h : idx < ws.length) → stg (i0 + idx) = some (ws.get ⟨idx, h⟩).2) →
      (fullEntries t0 i0 ws).foldl (walReplayOne stg) tc = postTgt tc ws := by
  intro ws
  induction ws with
  | nil =>
    intro t0 tc i0 stg _
    rfl
  | cons a t ih =>
    intro t0 tc i0 stg hstg
    rw [fullEntries_cons, List.foldl_cons, postTgt_cons]
    have h0 : stg i0 = some a.2 := by
      have h1 := hstg 0 (by simp)
      rwa [Nat.add_zero] at h1
    have hstep : walReplayOne stg tc (i0, a.1, (t0 a.1).isSome)
        = updMap tc a.1 (some a.2) := by
      unfold walReplayOne
      dsimp only
      rw [h0]
    rw [hstep]
    refine ih t0 _ (i0 + 1) stg ?_
    intro idx h
    have h2 := hstg (idx + 1) (Nat.succ_lt_succ h)
    rwa [show i0 + (idx + 1) = i0 + 1 + idx from by omega] at h2

/-- Helper: replaying entries whose staged contents (when still present)
already equal the target contents changes nothing. -/
theorem replay_fold_fixed {P V : Type} [DecidableEq P] (stg : Nat → Option V) :
    ∀ (L : List (Nat × P × Bool)) (tgt : P → Option V),
      (∀ e ∈ L, ∀ v, stg e.1 = some v → tgt e.2.1 = some v) →
      L.foldl (walReplayOne stg) tgt = tgt := by
  intro L
  induction L with
  | nil => intro tgt _; rfl
  | cons e t ih =>
    intro tgt hall
    rw [List.foldl_cons]
    have h1 : walReplayOne stg tgt e = tgt := by
      unfold walReplayOne
      cases hc : stg e.1 with
      | none => rfl
      | some v =>
        have hv := hall e (List.mem_cons_self e t) v hc
        funext q
        show updMap tgt e.2.1 (some v) q = tgt q
        unfold updMap
        by_cases hq : q = e.2.1
        · rw [if_pos hq, hq, hv]
        · rw [if_neg hq]
    rw [h1]
    exact ih tgt (fun e2 he2 => hall e2 (List.mem_cons_of_mem _ he2))

/-- Helper: staged-to-target copies touch only their own targets. -/
theorem apply_run_tgt_off {P V : Type} [DecidableEq P] :
    ∀ (l : List (WalStep P V)) (d : WalDisk P V) (q : P),
      (∀ s ∈ l, ∃ i p, s = .applyStaged i p ∧ q ≠ p) →
      (walRun d l).tgt q = d.tgt q := by
  intro l
  induction l with
  | nil => intro d q _; rfl
  | cons s t ih =>
    intro d q hall
    obtain ⟨i, p, hs, hqp⟩ := hall s (List.mem_cons_self s t)
    subst hs
    rw [show walRun d (WalStep.applyStaged i p :: t)
        = walRun (walExec d (.applyStaged i p)) t from rfl]
    rw [ih _ q (fun s2 hs2 => hall s2 (List.mem_cons_of_mem _ hs2))]
    rw [walExec_applyStaged]
    cases d.stg i with
    | none => rfl
    | some v =>
      show updMap d.tgt p (some v) q = d.tgt q
      unfold updMap
      rw [if_neg hqp]

/-- Helper: each generated copy step targets one of the written paths. -/
theorem applySteps_mem_key {P V : Type} :
    ∀ (ws : List (P × V)) (i0 : Nat) (i : Nat) (p : P),
      WalStep.applyStaged (V := V) i p ∈ applySteps i0 ws →
      p ∈ ws.map Prod.fst := by
  intro ws
  induction ws with
  | nil => intro i0 i p h; exact absurd h (List.not_mem_nil _)
  | cons a t ih =>
    intro i0 i p h
    rw [applySteps_cons] at h
    rw [List.map_cons, List.mem_cons]
    rcases List.mem_cons.mp h with h2 | h2
    · left
      injection h2 with h3 h4
    · right
      exact ih (i0 + 1) i p h2

/-- Helper: with every staged file present, the full copy pass rewrites
the targets to the post-transaction contents. -/
theorem apply_full {P V : Type} [DecidableEq P] :
    ∀ (ws : List (P × V)) (i0 : Nat) (d : WalDisk P V),
      (∀ idx, (h : idx < ws.length) → d.stg (i0 + idx) = some (ws.get ⟨idx, h⟩).2) →
      (walRun d (applySteps i0 ws)).tgt = postTgt d.tgt ws := by
  intro ws
  induction ws with
  | nil => intro i0 d _; rfl
  | cons a t ih =>
    intro i0 d hstg
    rw [applySteps_cons]
    have h0 : d.stg i0 = some a.2 := by
      have h1 := hstg 0 (by simp)
      rwa [Nat.add_zero] at h1
    have hstep : walExec d (.applyStaged i0 a.1)
        = { d with tgt := updMap d.tgt a.1 (some a.2) } := by
      rw [walExec_applyStaged, h0]
    rw [show walRun d (WalStep.applyStaged i0 a.1 :: applySteps (i0 + 1) t)
        = walRun (walExec d (.applyStaged i0 a.1)) (applySteps (i0 + 1) t) from rfl]
    rw [hstep, postTgt_cons]
    refine (ih (i0 + 1) _ ?_).trans ?_
    · intro idx h
      show d.stg (i0 + 1 + idx) = _
      have h2 := hstg (idx + 1) (Nat.succ_lt_succ h)
      rwa [show i0 + (idx + 1) = i0 + 1 + idx from by omega] at h2
    · rfl

/-- Helper: with an empty log, recovery leaves the targets unchanged. -/
theorem recover_nil_log {P V : Type} [DecidableEq P] (d : WalDisk P V)
    (h : d.logE = []) : (walRecover d).tgt = d.tgt := by
  unfold walRecover
  rw [h]
  cases d.logC <;> simp

/-- Helper: state after the full staging pass and the commit marker:
targets untouched, marker durable, log holding exactly the entry records,
every staged file present. -/
theorem stage_commit_state {P V : Type} [DecidableEq P] (t0 : P → Option V)
    (ws : List (P × V)) :
    (walRun (walInit t0) (stageSteps 0 ws ++ [WalStep.logCommit])).tgt = t0
    ∧ (walRun (walInit t0) (stageSteps 0 ws ++ [WalStep.logCommit])).logC = true
    ∧ (walRun (walInit t0) (stageSteps 0 ws ++ [WalStep.logCommit])).logE
        = fullEntries t0 0 ws
    ∧ (∀ idx, (h : idx < ws.length) →
        (walRun (walInit t0) (stageSteps 0 ws ++ [WalStep.logCommit])).stg (0 + idx)
          = some (ws.get ⟨idx, h⟩).2) := by
  obtain ⟨ht, hc, hlE, hpres, hidx⟩ := stage_full t0 ws 0 (walInit t0) (walInit_good t0)
  have hr : walRun (walInit t0) (stageSteps 0 ws ++ [WalStep.logCommit])
      = walExec (walRun (walInit t0) (stageSteps 0 ws)) .logCommit := by
    unfold walRun
    rw [List.foldl_append]
    rfl
  rw [hr, walExec_logCommit]
  refine ⟨ht, rfl, ?_, ?_⟩
  · show (walRun (walInit t0) (stageSteps 0 ws)).logE = fullEntries t0 0 ws
    rw [hlE]
    exact List.nil_append _
  · intro idx h
    show (walRun (walInit t0) (stageSteps 0 ws)).stg (0 + idx) = some (ws.get ⟨idx, h⟩).2
    exact hidx idx h

/-- Helper: a crash during the staged-to-target copies finds the commit
marker durable, and recovery produces the post-transaction targets. -/
theorem wal_phase2a {P V : Type} [DecidableEq P] (t0 : P → Option V)
    (ws : List (P × V)) (k2 : Nat) :
    (walRun (walRun (walInit t0) (stageSteps 0 ws ++ [WalStep.logCommit]))
        ((applySteps 0 ws).take k2)).logC = true
    ∧ (walRecover (walRun (walRun (walInit t0)
        (stageSteps 0 ws ++ [WalStep.logCommit]))
        ((applySteps 0 ws).take k2))).tgt = postTgt t0 ws := by
  obtain ⟨ht, hc, hlE, hstg⟩ := stage_commit_state t0 ws
  obtain ⟨hps, hpb, hpe, hpc⟩ := run_apply_pres ((applySteps 0 ws).take k2)
    (walRun (walInit t0) (stageSteps 0 ws ++ [WalStep.logCommit]))
    (fun s hs => applySteps_all_apply ws 0 s (List.mem_of_mem_take hs))
  refine ⟨by rw [hpc, hc], ?_⟩
  unfold walRecover
  rw [hpc, hc, if_pos (Eq.refl true)]
  rw [hpe, hlE, hps]
  rw [replay_full ws t0 _ 0 _ hstg]
  refine postTgt_congr ws t0 _ ?_
  intro q hq
  rw [apply_run_tgt_off _ _ q ?_, ht]
  intro s hs
  obtain ⟨i, p, hsp⟩ := applySteps_all_apply ws 0 s (List.mem_of_mem_take hs)
  refine ⟨i, p, hsp, fun hqp => hq ?_⟩
  rw [hqp]
  exact applySteps_mem_key ws 0 i p (hsp ▸ List.mem_of_mem_take hs)

/-- Helper: a crash during cleanup, after every staged-to-target copy,
recovers to the post-transaction targets. -/
theorem wal_phase2b {P V : Type} [DecidableEq P] (t0 : P → Option V)
    (ws : List (P × V)) (hnd : (ws.map Prod.fst).Nodup) (k3 : Nat) :
    (walRecover (walRun (walRun (walRun (walInit t0)
        (stageSteps 0 ws ++ [WalStep.logCommit])) (applySteps 0 ws))
        ((cleanSteps 0 ws).take k3))).tgt = postTgt t0 ws := by
  obtain ⟨ht, hc, hlE, hstg⟩ := stage_commit_state t0 ws
  obtain ⟨haps, hapb, hape, hapc⟩ := run_apply_pres (applySteps 0 ws)
    (walRun (walInit t0) (stageSteps 0 ws ++ [WalStep.logCommit]))
    (fun s hs => applySteps_all_apply ws 0 s hs)
  have h2tgt : (walRun (walRun (walInit t0)
      (stageSteps 0 ws ++ [WalStep.logCommit])) (applySteps 0 ws)).tgt
      = postTgt t0 ws := by
    rw [apply_full ws 0 _ hstg, ht]
  obtain ⟨hct, hce, hcc, hcs⟩ := run_clean_pres ((cleanSteps 0 ws).take k3)
    (walRun (walRun (walInit t0) (stageSteps 0 ws ++ [WalStep.logCommit]))
      (applySteps 0 ws))
    (fun s hs => cleanSteps_all_clean ws 0 s (List.mem_of_mem_take hs))
  unfold walRecover
  rw [hcc, hapc, hc, if_pos (Eq.refl true)]
  rw [hce, hape, hlE, hct, h2tgt]
  refine replay_fold_fixed _ _ _ ?_
  intro e he v hv
  obtain ⟨idx, hlt, he1, he2⟩ := fullEntries_mem ws t0 0 e he
  rcases hcs e.1 with hsome | hnone
  · rw [hsome, haps, he1, hstg idx hlt] at hv
    injection hv with hv2
    rw [he2, ← hv2]
    exact postTgt_mem ws t0 hnd _ _ (List.get_mem ws idx hlt)
  · rw [hnone] at hv
    exact absurd hv (by simp)

/-- Helper: a crash at or after the log-entry removal recovers to the
post-transaction targets. -/
theorem wal_phase2c {P V : Type} [DecidableEq P] (t0 : P → Option V)
    (ws : List (P × V)) :
    (walRecover (walRun (walRun (walRun (walRun (walInit t0)
        (stageSteps 0 ws ++ [WalStep.logCommit])) (applySteps 0 ws))
        (cleanSteps 0 ws)) [WalStep.clearLog])).tgt = postTgt t0 ws := by
  obtain ⟨ht, hc, hlE, hstg⟩ := stage_commit_state t0 ws
  have h2tgt : (walRun (walRun (walInit t0)
      (stageSteps 0 ws ++ [WalStep.logCommit])) (applySteps 0 ws)).tgt
      = postTgt t0 ws := by
    rw [apply_full ws 0 _ hstg, ht]
  obtain ⟨hct, hce, hcc, hcs⟩ := run_clean_pres (cleanSteps 0 ws)
    (walRun (walRun (walInit t0) (stageSteps 0 ws ++ [WalStep.logCommit]))
      (applySteps 0 ws))
    (fun s hs => cleanSteps_all_clean ws 0 s hs)
  rw [walRun_single, walExec_clearLog]
  rw [recover_nil_log _ rfl]
  show (walRun (walRun (walRun (walInit t0)
      (stageSteps 0 ws ++ [WalStep.logCommit])) (applySteps 0 ws))
      (cleanSteps 0 ws)).tgt = postTgt t0 ws
  rw [hct, h2tgt]

/-- Helper: once the crash prefix includes the commit-marker append,
recovery produces the post-transaction targets. -/
theorem wal_phase2_post {P V : Type} [DecidableEq P] (t0 : P → Option V)
    (ws : List (P × V)) (hnd : (ws.map Prod.fst).Nodup) (k : Nat)
    (hk : 3 * ws.length < k) :
    (walRecover (walRun (walInit t0) ((txSteps ws).take k))).tgt
      = postTgt t0 ws := by
  have hlenA : (stageSteps (P := P) (V := V) 0 ws ++ [WalStep.logCommit]).length
      = 3 * ws.length + 1 := by
    rw [List.length_append, stageSteps_length]
    rfl
  have hlenV : ((stageSteps (P := P) (V := V) 0 ws ++ [WalStep.logCommit])
      ++ applySteps 0 ws).length = 4 * ws.length + 1 := by
    rw [List.length_append, hlenA, applySteps_length]
    omega
  have hlenW : (((stageSteps (P := P) (V := V) 0 ws ++ [WalStep.logCommit])
      ++ applySteps 0 ws) ++ cleanSteps 0 ws).length = 6 * ws.length + 1 := by
    rw [List.length_append, hlenV, cleanSteps_length]
    omega
  have hA : (stageSteps (P := P) (V := V) 0 ws ++ [WalStep.logCommit]).take k
      = stageSteps 0 ws ++ [WalStep.logCommit] := by
    refine List.take_of_length_le ?_
    rw [hlenA]
    omega
  have hsplit : (txSteps ws).take k
      = (((stageSteps 0 ws ++ [WalStep.logCommit])
          ++ (applySteps 0 ws).take (k - (3 * ws.length + 1)))
          ++ (cleanSteps 0 ws).take (k - (4 * ws.length + 1)))
          ++ [WalStep.clearLog].take (k - (6 * ws.length + 1)) := by
    unfold txSteps
    rw [List.take_append_eq_append_take, List.take_append_eq_append_take,
      List.take_append_eq_append_take, hA, hlenA, hlenV, hlenW]
  rw [hsplit]
  have hrun : walRun (walInit t0) ((((stageSteps 0 ws ++ [WalStep.logCommit])
      ++ (applySteps 0 ws).take (k - (3 * ws.length + 1)))
      ++ (cleanSteps 0 ws).take (k - (4 * ws.length + 1)))
      ++ [WalStep.clearLog].take (k - (6 * ws.length + 1)))
      = walRun (walRun (walRun (walRun (walInit t0)
          (stageSteps 0 ws ++ [WalStep.logCommit]))
          ((applySteps 0 ws).take (k - (3 * ws.length + 1))))
          ((cleanSteps 0 ws).take (k - (4 * ws.length + 1))))
          ([WalStep.clearLog].take (k - (6 * ws.length + 1))) := by
    unfold walRun
    rw [List.foldl_append, List.foldl_append, List.foldl_append]
  rw [hrun]
  by_cases hka : k ≤ 4 * ws.length + 1
  · have hk3 : k - (4 * ws.length + 1) = 0 := by omega
    have hk4 : k - (6 * ws.length + 1) = 0 := by omega
    rw [hk3, hk4, List.take_zero, List.take_zero, walRun_nil, walRun_nil]
    exact (wal_phase2a t0 ws (k - (3 * ws.length + 1))).2
  · by_cases hkb : k ≤ 6 * ws.length + 1
    · have hk4 : k - (6 * ws.length + 1) = 0 := by omega
      have hap : (applySteps (P := P) (V := V) 0 ws).take
          (k - (3 * ws.length + 1)) = applySteps 0 ws := by
        refine List.take_of_length_le ?_
        rw [applySteps_length]
        omega
      rw [hk4, List.take_zero, walRun_nil, hap]
      exact wal_phase2b t0 ws hnd (k - (4 * ws.length + 1))
    · have hap : (applySteps (P := P) (V := V) 0 ws).take
          (k - (3 * ws.length + 1)) = applySteps 0 ws := by
        refine List.take_of_length_le ?_
        rw [applySteps_length]
        omega
      have hcl : (cleanSteps (P := P) (V := V) 0 ws).take
          (k - (4 * ws.length + 1)) = cleanSteps 0 ws := by
        refine List.take_of_length_le ?_
        rw [cleanSteps_length]
        omega
      have hclr : [WalStep.clearLog (P := P) (V := V)].take
          (k - (6 * ws.length + 1)) = [WalStep.clearLog] := by
        refine List.take_of_length_le ?_
        rw [List.length_singleton]
        omega
      rw [hap, hcl, hclr]
      exact wal_phase2c t0 ws

/-- C1: for every WAL transaction (writes `ws`, distinct target paths)
interrupted by a crash after any prefix `k` of its disk I/O — staging,
commit-marker append, staged-to-target copies, cleanup, log-entry
removal — running `recover` on restart leaves the whole target map equal
to either its pre-transaction contents or its post-transaction contents,
never a mixture. -/
theorem wal_recover_atomic {P V : Type} [DecidableEq P] (t0 : P → Option V)
    (ws : List (P × V)) (hnd : (ws.map Prod.fst).Nodup) (k : Nat) :
    (walRecover (walRun (walInit t0) ((txSteps ws).take k))).tgt = t0
    ∨ (walRecover (walRun (walInit t0) ((txSteps ws).take k))).tgt
        = postTgt t0 ws := by
  by_cases hk : k ≤ 3 * ws.length
  · exact Or.inl (wal_phase1_pre t0 ws k hk)
  · exact Or.inr (wal_phase2_post t0 ws hnd k (by omega))

/-- Witness for C1: a two-write transaction over Nat paths, crashed after
4 of its 14 I/Os. -/
theorem wal_recover_atomic_witness :
    (([((0 : Nat), (11 : Nat)), (1, 21)].map Prod.fst).Nodup)
    ∧ ((walRecover (walRun (walInit (fun p => if p = 0 then some (10 : Nat)
          else if p = 1 then some 20 else none))
          ((txSteps [((0 : Nat), (11 : Nat)), (1, 21)]).take 4))).tgt
          = (fun p => if p = 0 then some (10 : Nat)
              else if p = 1 then some 20 else none)
      ∨ (walRecover (walRun (walInit (fun p => if p = 0 then some (10 : Nat)
          else if p = 1 then some 20 else none))
          ((txSteps [((0 : Nat), (11 : Nat)), (1, 21)]).take 4))).tgt
          = postTgt (fun p => if p = 0 then some (10 : Nat)
              else if p = 1 then some 20 else none) [(0, 11), (1, 21)]) :=
  ⟨by decide, wal_recover_atomic _ [(0, 11), (1, 21)] (by decide) 4⟩

/-- Counterexample to C2: stage writes to chain.json (path 0, pre 10,
post 11) and graph.json (path 1, pre 20, post 21), then crash after
chain.json has been copied over its target — a prefix of 8 of the 14
I/Os — but before graph.json is copied.  The commit marker is already
durable at that point, because `commit` appends it before any
staged-to-target copy; recovery therefore replays the transaction and
graph.json ends at its post-transaction contents 21, not at its
pre-transaction contents 20 as the claim asserts. -/
theorem wal_crash_mid_commit_counterexample :
    ((walRun (walInit (fun p => if p = 0 then some (10 : Nat)
        else if p = 1 then some 20 else none))
        ((txSteps [((0 : Nat), (11 : Nat)), (1, 21)]).take 8)).logC = true)
    ∧ (walRecover (walRun (walInit (fun p => if p = 0 then some (10 : Nat)
        else if p = 1 then some 20 else none))
        ((txSteps [((0 : Nat), (11 : Nat)), (1, 21)]).take 8))).tgt 1
        ≠ some 20 := by decide

/-- C2 (amended): for a transaction staging chain.json (path `p1`) and
graph.json (path `p2`, distinct) that crashes right after chain.json has
been copied over its target and before graph.json is copied (8 of the 14
I/Os durable), recovery on next startup leaves BOTH files at their
post-transaction contents: the commit marker is appended before the
staged-to-target copies, so it is present at that crash point and the
transaction is replayed. -/
theorem wal_crash_mid_copy_recovers_post {P V : Type} [DecidableEq P]
    (t0 : P → Option V) (p1 p2 : P) (v1 v2 : V) (hne : p1 ≠ p2) :
    (walRun (walInit t0) ((txSteps [(p1, v1), (p2, v2)]).take 8)).logC = true
    ∧ (walRecover (walRun (walInit t0)
        ((txSteps [(p1, v1), (p2, v2)]).take 8))).tgt p1 = some v1
    ∧ (walRecover (walRun (walInit t0)
        ((txSteps [(p1, v1), (p2, v2)]).take 8))).tgt p2 = some v2 := by
  have hpost := wal_phase2a t0 [(p1, v1), (p2, v2)] 1
  have hw : walRun (walInit t0) ((txSteps [(p1, v1), (p2, v2)]).take 8)
      = walRun (walRun (walInit t0)
          (stageSteps 0 [(p1, v1), (p2, v2)] ++ [WalStep.logCommit]))
          ((applySteps 0 [(p1, v1), (p2, v2)]).take 1) := by
    rw [show (txSteps [(p1, v1), (p2, v2)]).take 8
        = (stageSteps 0 [(p1, v1), (p2, v2)] ++ [WalStep.logCommit])
          ++ (applySteps 0 [(p1, v1), (p2, v2)]).take 1 from rfl]
    unfold walRun
    rw [List.foldl_append]
  rw [hw]
  refine ⟨hpost.1, ?_, ?_⟩
  · rw [hpost.2]
    show (if p1 = p2 then some v2
      else if p1 = p1 then some v1 else t0 p1) = some v1
    rw [if_neg hne, if_pos rfl]
  · rw [hpost.2]
    show (if p2 = p2 then some v2
      else if p2 = p1 then some v1 else t0 p2) = some v2
    rw [if_pos rfl]

/-- Witness for the amended C2 at concrete paths and contents. -/
theorem wal_crash_mid_copy_recovers_post_witness :
    ((0 : Nat) ≠ 1)
    ∧ ((walRun (walInit (fun p => if p = 0 then some (10 : Nat) else none))
        ((txSteps [((0 : Nat), (11 : Nat)), (1, 21)]).take 8)).logC = true
    ∧ (walRecover (walRun (walInit (fun p => if p = 0 then some (10 : Nat)
        else none)) ((txSteps [((0 : Nat), (11 : Nat)), (1, 21)]).take 8))).tgt 0
        = some 11
    ∧ (walRecover (walRun (walInit (fun p => if p = 0 then some (10 : Nat)
        else none)) ((txSteps [((0 : Nat), (11 : Nat)), (1, 21)]).take 8))).tgt 1
        = some 21) :=
  ⟨by decide, wal_crash_mid_copy_recovers_post _ 0 1 11 21 (by decide)⟩
